import Mathlib

/-!
# Prusa ESP32 NIC firmware: `esp_protocol` checksum and receive parser

A shallow embedding of `main/esp_protocol/checksum.hpp` (the streaming
Fletcher16 accumulator) and of the receive parser declared in
`main/esp_protocol/parser.hpp`, with the properties of the specification
proved over the embedding.

Conventions of the embedding

* `uint8_t` is `Fin 256`; a `span<const uint8_t>` is a `List Byte`.
* `uint32_t` registers are natural numbers; every addition on them goes through
  an `Adder`, which is `add_u32` (reduction modulo `2^32`) for the program
  itself.  `uint16_t` assignments reduce modulo `2^16`.
* `size_t` values (`len`, `blocklen`, `base_offset`, `i`) never exceed
  `data.size()`, so they are plain natural numbers.
* `data[k]` is the total lookup `data[k]?`; an access outside the span makes
  the whole call return `none`.
* The two loops of `update` carry a fuel argument and return `none` when it
  runs out; `update` supplies `data.size() + 1`.
-/

namespace esp

/-- One `uint8_t`. -/
abbrev Byte := Fin 256

/-- The input type `ChecksumInput = span<const uint8_t>`. -/
abbrev ChecksumInput := List Byte

/-- The constant `FLETCHER_16_MODULO = 0xffff`. -/
def FLETCHER_16_MODULO : Nat := 0xffff

/-- The constant `FLETCHER_16_MAX_BULK_SIZE = 360 * 2`. -/
def FLETCHER_16_MAX_BULK_SIZE : Nat := 360 * 2

/-- The members of `struct Fletcher16`: `uint32_t c0, c1` and
`std::optional<uint8_t> overflow_byte`. -/
structure Fletcher16 where
  c0 : Nat
  c1 : Nat
  overflow_byte : Option Byte
deriving DecidableEq, Repr

/-- How the sum of two `uint32_t` operands is formed; `none` is a trap. -/
abbrev Adder := Nat → Nat → Option Nat

/-- The addition of the machine: `uint32_t` wrap-around. -/
def add_u32 : Adder := fun a b => some ((a + b) % 2 ^ 32)

/-- Addition in unbounded integers. -/
def add_unbounded : Adder := fun a b => some (a + b)

/-- Addition that traps as soon as a sum does not fit `uint32_t`. -/
def add_checked : Adder := fun a b => if a + b < 2 ^ 32 then some (a + b) else none

/-- The constructor `Fletcher16()`: both sums zero, no pending byte. -/
def Fletcher16.create : Fletcher16 := ⟨0, 0, none⟩

/-- The body of the `for` loop of `update` at index `i` (lines 68-78). -/
def forBody (add : Adder) (data : ChecksumInput) (len base_offset i : Nat)
    (s : Fletcher16) : Option Fletcher16 :=
  if i + 1 ≠ len then do
    let b0 ← data[base_offset + i]?
    let block : Nat := b0.val
    let b1 ← data[base_offset + i + 1]?
    let block : Nat := (block ||| (b1.val <<< 8)) % 2 ^ 16
    let c0 ← add s.c0 block
    let c1 ← add s.c1 c0
    pure { s with c0 := c0, c1 := c1 }
  else do
    let b ← data[i + base_offset]?
    pure { s with overflow_byte := some b }

/-- The loop `for (size_t i = 0; i < blocklen; i += 2)` of `update`, entered
at index `i`. -/
def forLoop (add : Adder) (data : ChecksumInput) (len base_offset blocklen : Nat) :
    Nat → Nat → Fletcher16 → Option Fletcher16
  | 0, _, _ => none
  | fuel + 1, i, s =>
    if i < blocklen then
      (forBody add data len base_offset i s).bind
        (forLoop add data len base_offset blocklen fuel (i + 2))
    else some s

/-- The loop `while (len > 0)` of `update` (lines 61-84), entered with the
current values of `len` and `iterations`. -/
def whileLoop (add : Adder) (data : ChecksumInput) (initial_offset : Nat) :
    Nat → Nat → Nat → Fletcher16 → Option Fletcher16
  | 0, _, _, _ => none
  | fuel + 1, len, iterations, s =>
    if len > 0 then
      let blocklen := if len ≥ FLETCHER_16_MAX_BULK_SIZE then FLETCHER_16_MAX_BULK_SIZE else len
      let base_offset := iterations * FLETCHER_16_MAX_BULK_SIZE + initial_offset
      (forLoop add data len base_offset blocklen (blocklen + 1) 0 s).bind fun s1 =>
        whileLoop add data initial_offset fuel (len - blocklen) (iterations + 1)
          { s1 with c0 := s1.c0 % FLETCHER_16_MODULO, c1 := s1.c1 % FLETCHER_16_MODULO }
    else some s

/-- The part of `update` ahead of the loop (lines 47-56): a pending byte is
joined with `data[0]`.  Returns the new state and `initial_offset`. -/
def pendingStep (add : Adder) (data : ChecksumInput) (s : Fletcher16) :
    Option (Fletcher16 × Nat) :=
  match s.overflow_byte with
  | some p => do
    let block : Nat := p.val
    let d0 ← data[0]?
    let block : Nat := (block ||| (d0.val <<< 8)) % 2 ^ 16
    let t0 ← add s.c0 block
    let c0 := t0 % FLETCHER_16_MODULO
    let t1 ← add s.c1 c0
    let c1 := t1 % FLETCHER_16_MODULO
    pure (⟨c0, c1, none⟩, 1)
  | none => pure (s, 0)

/-- The method `Fletcher16::update`, over a given addition. -/
def Fletcher16.updateWith (add : Adder) (s : Fletcher16) (data : ChecksumInput) :
    Option Fletcher16 :=
  if data.length = 0 then some s
  else
    (pendingStep add data s).bind fun r =>
      whileLoop add data r.2 (data.length + 1) (data.length - r.2) 0 r.1

/-- The method `Fletcher16::update` as the machine runs it. -/
def Fletcher16.update (s : Fletcher16) (data : ChecksumInput) : Option Fletcher16 :=
  Fletcher16.updateWith add_u32 s data

/-- The method `Fletcher16::update` run in unbounded integers. -/
def Fletcher16.update_unbounded (s : Fletcher16) (data : ChecksumInput) : Option Fletcher16 :=
  Fletcher16.updateWith add_unbounded s data

/-- The method `Fletcher16::update` run with trapping addition: `none` as soon as
an intermediate value of `c0` or `c1` exceeds `2^32 - 1`. -/
def Fletcher16.update_checked (s : Fletcher16) (data : ChecksumInput) : Option Fletcher16 :=
  Fletcher16.updateWith add_checked s data

/-- The method `Fletcher16::get` in state-passing form: the value returned and
the object after the call.  The body assigns only to its locals. -/
def Fletcher16.get_call (s : Fletcher16) : Nat × Fletcher16 :=
  let tmp_c0 := s.c0
  let tmp_c1 := s.c1
  match s.overflow_byte with
  | some p =>
    let block : Nat := p.val
    let tmp_c0 := ((tmp_c0 + block) % 2 ^ 32) % FLETCHER_16_MODULO
    let tmp_c1 := ((tmp_c1 + tmp_c0) % 2 ^ 32) % FLETCHER_16_MODULO
    (tmp_c0 ||| ((tmp_c1 <<< 16) % 2 ^ 32), s)
  | none => (tmp_c0 ||| ((tmp_c1 <<< 16) % 2 ^ 32), s)

/-- The value of `Fletcher16::get`. -/
def Fletcher16.get (s : Fletcher16) : Nat := s.get_call.1

/-- The method `Fletcher16::reset`. -/
def Fletcher16.reset (_s : Fletcher16) : Fletcher16 :=
  { c0 := 0, c1 := 0, overflow_byte := none }

/-- The free function `fletcher16`. -/
def fletcher16 (data : ChecksumInput) : Option Nat :=
  (Fletcher16.create.update data).map Fletcher16.get

/-- Successive `update` calls, one for each slice in order. -/
def Fletcher16.updateAll (s : Fletcher16) : List ChecksumInput → Option Fletcher16
  | [] => some s
  | d :: ds => (s.update d).bind fun s1 => s1.updateAll ds

/-- The two sums `tmp_c0`, `tmp_c1` that `Fletcher16::get` combines (lines
88-94): the stored sums, with a pending byte folded in as a word of its own. -/
def Fletcher16.folded (s : Fletcher16) : Nat × Nat :=
  let tmp_c0 := s.c0
  let tmp_c1 := s.c1
  match s.overflow_byte with
  | some p =>
    let block : Nat := p.val
    let tmp_c0 := ((tmp_c0 + block) % 2 ^ 32) % FLETCHER_16_MODULO
    let tmp_c1 := ((tmp_c1 + tmp_c0) % 2 ^ 32) % FLETCHER_16_MODULO
    (tmp_c0, tmp_c1)
  | none => (tmp_c0, tmp_c1)

/-- The states an accumulator can be in: freshly constructed, or reached from
such a state through `update`, `reset` and `get`. -/
inductive Fletcher16.Reachable : Fletcher16 → Prop where
  | create : Fletcher16.Reachable Fletcher16.create
  | update (s s1 : Fletcher16) (d : ChecksumInput) :
      Fletcher16.Reachable s → s.update d = some s1 → Fletcher16.Reachable s1
  | reset (s : Fletcher16) : Fletcher16.Reachable s → Fletcher16.Reachable s.reset
  | get (s : Fletcher16) : Fletcher16.Reachable s → Fletcher16.Reachable s.get_call.2

/-- The loop `while (len > 0)` of `update` once more, returning with the state
the final value of `iterations` and the value of `blocklen` in each pass, in
order. -/
def whileLoopTrace (add : Adder) (data : ChecksumInput) (initial_offset : Nat) :
    Nat → Nat → Nat → Fletcher16 → Option (Fletcher16 × Nat × List Nat)
  | 0, _, _, _ => none
  | fuel + 1, len, iterations, s =>
    if len > 0 then
      let blocklen := if len ≥ FLETCHER_16_MAX_BULK_SIZE then FLETCHER_16_MAX_BULK_SIZE else len
      let base_offset := iterations * FLETCHER_16_MAX_BULK_SIZE + initial_offset
      (forLoop add data len base_offset blocklen (blocklen + 1) 0 s).bind fun s1 =>
        (whileLoopTrace add data initial_offset fuel (len - blocklen) (iterations + 1)
          { s1 with c0 := s1.c0 % FLETCHER_16_MODULO, c1 := s1.c1 % FLETCHER_16_MODULO }).map
          fun r => (r.1, r.2.1, blocklen :: r.2.2)
    else some (s, iterations, [])

/-- The method `Fletcher16::update` as the machine runs it, returning with the
state the number of passes of the `while` loop and the bytes each pass took. -/
def Fletcher16.update_trace (s : Fletcher16) (data : ChecksumInput) :
    Option (Fletcher16 × Nat × List Nat) :=
  if data.length = 0 then some (s, 0, [])
  else
    (pendingStep add_u32 data s).bind fun r =>
      whileLoopTrace add_u32 data r.2 (data.length + 1) (data.length - r.2) 0 r.1

/-! ## Reference semantics: one byte at a time -/

/-- Consuming one byte: it is kept as the pending byte, or it completes a
little-endian word with the pending byte, which is then added to both sums. -/
def Fletcher16.push (s : Fletcher16) (b : Byte) : Fletcher16 :=
  match s.overflow_byte with
  | none => { s with overflow_byte := some b }
  | some p =>
    let c0 := (s.c0 + (p.val + 256 * b.val)) % FLETCHER_16_MODULO
    ⟨c0, (s.c1 + c0) % FLETCHER_16_MODULO, none⟩

/-- Consuming a buffer one byte at a time. -/
def Fletcher16.absorb (s : Fletcher16) (d : List Byte) : Fletcher16 :=
  d.foldl Fletcher16.push s

/-- Both sums are reduced modulo 65535. -/
def Fletcher16.Reduced (s : Fletcher16) : Prop :=
  s.c0 < FLETCHER_16_MODULO ∧ s.c1 < FLETCHER_16_MODULO

instance (s : Fletcher16) : Decidable s.Reduced := by
  unfold Fletcher16.Reduced; infer_instance

/-- The sums after the complete byte pairs of a buffer, in unbounded integers. -/
def bulk (c0 c1 : Nat) : List Byte → Nat × Nat
  | a :: b :: r => bulk (c0 + (a.val + 256 * b.val)) (c1 + (c0 + (a.val + 256 * b.val))) r
  | [_] => (c0, c1)
  | [] => (c0, c1)

/-- The pending byte after a buffer: its last byte when the length is odd. -/
def lastOdd (o : Option Byte) : List Byte → Option Byte
  | _ :: _ :: r => lastOdd o r
  | [a] => some a
  | [] => o

/-- Triangular numbers. -/
def tri : Nat → Nat
  | 0 => 0
  | n + 1 => tri n + (n + 1)

/-- Room for `m` more words in both registers. -/
def Fits (c0 c1 m : Nat) : Prop :=
  c0 + 65535 * m < 2 ^ 32 ∧ c1 + m * c0 + 65535 * tri m < 2 ^ 32

/-! ## The non-chunked reference of the specification -/

/-- The number of 16-bit words of a buffer of length `n`: `ceil(n/2)`. -/
def refCount (d : List Byte) : Nat := (d.length + 1) / 2

/-- The word `w_j = d[2j] + 256*d[2j+1]`; a missing final byte counts as 0. -/
def refWord (d : List Byte) (j : Nat) : Nat :=
  (d.getD (2 * j) 0).val + 256 * (d.getD (2 * j + 1) 0).val

/-- The first sum, `w_0 + ... + w_{m-1}`, before reduction. -/
def refTotal0 (d : List Byte) : Nat :=
  ((List.range (refCount d)).map (refWord d)).sum

/-- The second sum, the sum over `k < m` of `w_0 + ... + w_k`, before reduction. -/
def refTotal1 (d : List Byte) : Nat :=
  ((List.range (refCount d)).map fun k => ((List.range (k + 1)).map (refWord d)).sum).sum

/-- The reference checksum: both sums reduced modulo 65535 at the end, the
first in the low 16 bits and the second in the high 16 bits. -/
def fletcher16_reference (d : List Byte) : Nat :=
  refTotal0 d % 65535 + 65536 * (refTotal1 d % 65535)

/-- The sums over all words of a buffer, the unpaired last byte counted as a
word with high byte 0, in unbounded integers. -/
def full (c0 c1 : Nat) : List Byte → Nat × Nat
  | a :: b :: r => full (c0 + (a.val + 256 * b.val)) (c1 + (c0 + (a.val + 256 * b.val))) r
  | [a] => (c0 + a.val, c1 + (c0 + a.val))
  | [] => (c0, c1)

/-! ## The receive parser `RxParserBase`

`parser.hpp` declares the parser: its states, its data members and the names of
its member functions and hooks.  The bodies of the member functions, the
message prelude of `messages.hpp` and the collaborator behind the pure virtual
hooks are not part of the sources; they are modelled from the specification. -/

/-- The enumeration `RxParserBase::State`. -/
inductive State where
  | Intron
  | Header
  | Data
  | ThrowAwayData
deriving DecidableEq, Repr

/-- Modelled from the spec: the fixed enumeration of message types of
`messages.hpp`, absent from the sources; one type for each completion hook that
`parser.hpp` declares. -/
inductive MessageType where
  | scan_ap_count
  | scan_ap_info
  | esp_device_info
  | packet
deriving DecidableEq, Repr

/-- Modelled from the spec: the wire layout of `messages.hpp` and the answers of
the collaborator, both absent from the sources.  The header has a fixed size and
carries a message type, a declared body length and a checksum field; the
collaborator accepts or rejects a header through its start hook
(`start_packet`), and `validate_length_with_type` checks the declared length
against the type. -/
structure Collaborator where
  header_size : Nat
  message_type : List Byte → MessageType
  declared_length : List Byte → Nat
  checksum_field : List Byte → Nat
  start_packet : List Byte → Bool
  validate_length_with_type : List Byte → Bool

/-- The calls the parser makes on its collaborator: the eight pure virtual
members that `parser.hpp` declares.  Each call is recorded with what the
collaborator sees of the parser at that moment: the prelude `msg` for the start
hook, the slice for the body hook, the prelude and the flag `checksum_valid` for
the four completion hooks. -/
inductive Hook where
  | process_scan_ap_count (header : List Byte) (checksum_valid : Bool)
  | process_scan_ap_info (header : List Byte) (checksum_valid : Bool)
  | process_invalid_message
  | process_esp_device_info (header : List Byte) (checksum_valid : Bool)
  | start_packet (header : List Byte)
  | reset_packet
  | update_packet (bytes : List Byte)
  | process_packet (header : List Byte) (checksum_valid : Bool)
deriving DecidableEq, Repr

/-- Modelled from the spec: the completion hook selected by the message type,
absent from the sources (the dispatch of `on_parsed`); `process_packet` is the
hook of a packet. -/
def completion_hook (t : MessageType) (header : List Byte) (checksum_valid : Bool) : Hook :=
  match t with
  | MessageType.scan_ap_count => Hook.process_scan_ap_count header checksum_valid
  | MessageType.scan_ap_info => Hook.process_scan_ap_info header checksum_valid
  | MessageType.esp_device_info => Hook.process_esp_device_info header checksum_valid
  | MessageType.packet => Hook.process_packet header checksum_valid

/-- The data members of `RxParserBase`.  `input` is the range `[curr, end)` of
the current input slice, `buffer` the bytes written so far to the destination
`buffer` points at (the scratch `small_buffer` while a header is read), `msg`
the bytes of the completed prelude.  `read` is a `uint16_t`. -/
structure RxParserBase where
  msg : List Byte
  fl16 : Fletcher16
  input : List Byte
  buffer : List Byte
  intron : List Byte
  read : Nat
  state : State
  checksum_valid : Bool
deriving DecidableEq, Repr

/-- Modelled from the spec: `RxParserBase::reset`, absent from the sources.  The
parser returns to its initial state: searching for the intron, nothing read,
the accumulator zeroed. -/
def RxParserBase.reset (s : RxParserBase) : RxParserBase :=
  { s with msg := [], fl16 := s.fl16.reset, input := [], buffer := [], read := 0,
           state := State.Intron, checksum_valid := false }

/-- Modelled from the spec: `RxParserBase::set_intron`, absent from the sources.
Reconfiguring the intron also resets the state machine. -/
def RxParserBase.set_intron (s : RxParserBase) (new_intron : List Byte) : RxParserBase :=
  { s with intron := new_intron }.reset

/-- Modelled from the spec: the matching loop of `wait_for_intron`, absent from
the sources.  A byte equal to the expected position of the pattern advances the
match; on a mismatch matching restarts at the mismatching byte itself.  Returns
whether the full pattern was matched, the match position and the unconsumed
input. -/
def match_intron (intron : List Byte) : Nat → List Byte → Bool × Nat × List Byte
  | read, [] => (false, read, [])
  | read, b :: rest =>
    let read1 :=
      if intron[read]? = some b then (read + 1) % 2 ^ 16
      else if intron[0]? = some b then 1 else 0
    if read1 = intron.length then (true, read1, rest) else match_intron intron read1 rest

/-- Modelled from the spec: `RxParserBase::wait_for_intron`, absent from the
sources.  The result is `true` once the full pattern is matched, `false` when
more input is required. -/
def RxParserBase.wait_for_intron (s : RxParserBase) : Bool × RxParserBase :=
  let r := match_intron s.intron s.read s.input
  (r.1, { s with read := r.2.1, input := r.2.2 })

/-- Modelled from the spec: the transition taken when the full intron is
matched, absent from the sources.  A new candidate frame starts: the reset-frame
hook `reset_packet` is invoked, the header scratch and the byte counter are
reset, and the accumulator is zeroed with them, so that the checksum computed
for the frame covers its header and body bytes. -/
def RxParserBase.intron_found (s : RxParserBase) : RxParserBase × List Hook :=
  ({ s with state := State.Header, buffer := [], read := 0, fl16 := s.fl16.reset },
   [Hook.reset_packet])

/-- Modelled from the spec: `RxParserBase::wait_for_buffer`, absent from the
sources.  As many bytes as are available and still needed for the header go to
the scratch buffer and into the checksum accumulator. -/
def RxParserBase.wait_for_buffer (c : Collaborator) (s : RxParserBase) :
    Option (Bool × RxParserBase) := do
  let n := min s.input.length (c.header_size - s.read)
  let slice := s.input.take n
  let fl16 ← s.fl16.update slice
  let read := (s.read + n) % 2 ^ 16
  pure (decide (read = c.header_size),
    { s with fl16 := fl16, buffer := s.buffer ++ slice, input := s.input.drop n, read := read })

/-- Modelled from the spec: the transition taken when the header is complete,
absent from the sources.  The start hook is invoked; the body is read if the
collaborator accepts the header and its length fits its type, and thrown away
otherwise. -/
def RxParserBase.header_complete (c : Collaborator) (s : RxParserBase) :
    RxParserBase × List Hook :=
  let msg := s.buffer
  let accepted := c.start_packet msg && c.validate_length_with_type msg
  ({ s with msg := msg, read := 0,
            state := if accepted then State.Data else State.ThrowAwayData },
   [Hook.start_packet msg])

/-- Modelled from the spec: `RxParserBase::wait_for_data`, absent from the
sources.  As many bytes as are available and still needed for the body go into
the checksum accumulator and to the body hook `update_packet`. -/
def RxParserBase.wait_for_data (c : Collaborator) (s : RxParserBase) :
    Option (Bool × RxParserBase × List Hook) := do
  let len := c.declared_length s.msg
  let n := min s.input.length (len - s.read)
  let slice := s.input.take n
  let fl16 ← s.fl16.update slice
  let read := (s.read + n) % 2 ^ 16
  pure (decide (read = len),
    { s with fl16 := fl16, input := s.input.drop n, read := read },
    if n = 0 then [] else [Hook.update_packet slice])

/-- Modelled from the spec: `RxParserBase::on_parsed`, absent from the sources.
The computed checksum is compared with the checksum field of the frame, the
validity flag is set, the completion hook selected by the message type is
invoked and the parser returns to the intron search. -/
def RxParserBase.on_parsed (c : Collaborator) (s : RxParserBase) : RxParserBase × List Hook :=
  let valid := decide (s.fl16.get = c.checksum_field s.msg)
  ({ s with checksum_valid := valid, state := State.Intron, read := 0 },
   [completion_hook (c.message_type s.msg) s.msg valid])

/-- Modelled from the spec: the step of state `ThrowAwayData`, absent from the
sources.  As many bytes as are available and still to be drained are dropped;
they reach neither the checksum accumulator nor the collaborator. -/
def RxParserBase.throw_away_data (c : Collaborator) (s : RxParserBase) : Bool × RxParserBase :=
  let len := c.declared_length s.msg
  let n := min s.input.length (len - s.read)
  let read := (s.read + n) % 2 ^ 16
  (decide (read = len), { s with input := s.input.drop n, read := read })

/-- Modelled from the spec: the transition taken when the drain is complete,
absent from the sources.  The invalid-frame hook is invoked and the parser
returns to the intron search. -/
def RxParserBase.drain_complete (s : RxParserBase) : RxParserBase × List Hook :=
  ({ s with state := State.Intron, read := 0 }, [Hook.process_invalid_message])

/-- Modelled from the spec: the loop of `RxParserBase::process_data`, absent from
the sources.  The step function of the current state runs; the loop goes on when
the state advances and exits when more input is required.  `none` when the fuel
runs out or the accumulator fails. -/
def RxParserBase.run (c : Collaborator) : Nat → RxParserBase → Option (RxParserBase × List Hook)
  | 0, _ => none
  | fuel + 1, s =>
    match s.state with
    | State.Intron =>
      let r := s.wait_for_intron
      if r.1 then
        let t := r.2.intron_found
        (RxParserBase.run c fuel t.1).map fun q => (q.1, t.2 ++ q.2)
      else some (r.2, [])
    | State.Header =>
      (s.wait_for_buffer c).bind fun r =>
        if r.1 then
          let t := r.2.header_complete c
          (RxParserBase.run c fuel t.1).map fun q => (q.1, t.2 ++ q.2)
        else some (r.2, [])
    | State.Data =>
      (s.wait_for_data c).bind fun r =>
        if r.1 then
          let t := r.2.1.on_parsed c
          (RxParserBase.run c fuel t.1).map fun q => (q.1, r.2.2 ++ t.2 ++ q.2)
        else some (r.2.1, r.2.2)
    | State.ThrowAwayData =>
      let r := s.throw_away_data c
      if r.1 then
        let t := r.2.drain_complete
        (RxParserBase.run c fuel t.1).map fun q => (q.1, t.2 ++ q.2)
      else some (r.2, [])

/-- Modelled from the spec: `RxParserBase::process_data`, absent from the sources.
The cursor is set to the start of the slice and the loop runs.  The loop makes at
most three passes from one matched intron to the next and a match consumes at
least one byte, so `3 * size + 4` passes are enough. -/
def RxParserBase.process_data (c : Collaborator) (s : RxParserBase) (data : List Byte) :
    Option (RxParserBase × List Hook) :=
  RxParserBase.run c (3 * data.length + 4) { s with input := data }

/-- Successive `process_data` calls, one for each slice in order, with the hook
calls they make. -/
def RxParserBase.feed (c : Collaborator) (s : RxParserBase) :
    List (List Byte) → Option (RxParserBase × List Hook)
  | [] => some (s, [])
  | d :: ds =>
    (s.process_data c d).bind fun r =>
      (RxParserBase.feed c r.1 ds).map fun q => (q.1, r.2 ++ q.2)

/-- The loop of `process_data` on the current slice, followed by one
`process_data` call for each later slice. -/
def RxParserBase.resume (c : Collaborator) (fuel : Nat) (s : RxParserBase)
    (ds : List (List Byte)) : Option (RxParserBase × List Hook) :=
  (RxParserBase.run c fuel s).bind fun r =>
    (RxParserBase.feed c r.1 ds).map fun q => (q.1, r.2 ++ q.2)

/-- The passes of the loop a state may still need ahead of its next consumed
byte. -/
def State.rank : State → Nat
  | State.Intron => 1
  | State.Header => 3
  | State.Data => 2
  | State.ThrowAwayData => 2

/-- A sequence of slices without its first `n` bytes; the slices that lie wholly
inside those bytes are gone. -/
def drop_bytes : Nat → List (List Byte) → List (List Byte)
  | _, [] => []
  | n, d :: ds => if n ≤ d.length then d.drop n :: ds else drop_bytes (n - d.length) ds

/-- The hook calls in front of a result. -/
def with_hooks (hs : List Hook) (r : Option (RxParserBase × List Hook)) :
    Option (RxParserBase × List Hook) :=
  r.map fun q => (q.1, hs ++ q.2)

/-- The state in which the body of an accepted header is read and that of a
rejected header is drained. -/
def after_header (c : Collaborator) (hdr : List Byte) : State :=
  if (c.start_packet hdr && c.validate_length_with_type hdr) = true then State.Data
  else State.ThrowAwayData

/-- The little-endian value of a byte string. -/
def le_value : List Byte → Nat
  | [] => 0
  | b :: r => b.val + 256 * le_value r

/-- A six-byte header for the examples: type, body length, and the checksum as
four little-endian bytes.  Types 0 to 2 are packets, type 3 is a device-info
message, type 4 a scan count and every other type a scan entry.  Every header
with an even type is accepted and every length is right for every type. -/
def demo_collaborator : Collaborator where
  header_size := 6
  message_type := fun h =>
    if (h.getD 0 0).val ≤ 2 then MessageType.packet
    else if (h.getD 0 0).val = 3 then MessageType.esp_device_info
    else if (h.getD 0 0).val = 4 then MessageType.scan_ap_count
    else MessageType.scan_ap_info
  declared_length := fun h => (h.getD 1 0).val
  checksum_field := fun h => le_value (h.drop 2)
  start_packet := fun h => decide ((h.getD 0 0).val % 2 = 0)
  validate_length_with_type := fun _ => true

/-- A parser after `set_intron` with a two-byte pattern. -/
def demo_rx : RxParserBase :=
  RxParserBase.set_intron ⟨[], Fletcher16.create, [], [], [], 0, State.Intron, false⟩ [0x55, 0xAA]

end esp

namespace esp

theorem word_eq (a b : Byte) : (a.val ||| (b.val <<< 8)) % 2 ^ 16 = a.val + 256 * b.val := by
  have ha := a.isLt
  have hb := b.isLt
  have h := Nat.mul_add_lt_is_or (i := 8) (b := a.val) (by omega) b.val
  rw [Nat.shiftLeft_eq, Nat.or_comm, Nat.mul_comm, ← h]
  omega

theorem tri_mono {m n : Nat} (h : m ≤ n) : tri m ≤ tri n := by
  induction h with
  | refl => exact Nat.le_refl _
  | step _ ih => exact Nat.le_trans ih (Nat.le_add_right _ _)

theorem two_mul_tri (n : Nat) : 2 * tri n = n * (n + 1) := by
  induction n with
  | zero => rfl
  | succ k ih =>
    have e : tri (k + 1) = tri k + (k + 1) := rfl
    rw [e, Nat.mul_add, ih]
    ring

theorem tri_360 : tri 360 = 64980 := by
  have h := two_mul_tri 360
  omega

theorem fits_of_reduced {c0 c1 m : Nat} (h0 : c0 < 65535) (h1 : c1 < 65535) (hm : m ≤ 360) :
    Fits c0 c1 m := by
  have ht := tri_mono hm
  rw [tri_360] at ht
  have hmul : m * c0 ≤ 360 * 65534 := Nat.mul_le_mul hm (by omega)
  constructor <;> omega

theorem fits_step {c0 c1 m w : Nat} (h : Fits c0 c1 (m + 1)) (hw : w ≤ 65535) :
    c0 + w < 2 ^ 32 ∧ c1 + (c0 + w) < 2 ^ 32 ∧ Fits (c0 + w) (c1 + (c0 + w)) m := by
  obtain ⟨h0, h1⟩ := h
  have e1 : (m + 1) * c0 = m * c0 + c0 := Nat.succ_mul m c0
  have e2 : m * (c0 + w) = m * c0 + m * w := Nat.mul_add m c0 w
  have e3 : m * w ≤ m * 65535 := Nat.mul_le_mul_left m hw
  have e4 : tri (m + 1) = tri m + (m + 1) := rfl
  rw [e1, e4] at h1
  refine ⟨by omega, by omega, ?_, ?_⟩
  · omega
  · rw [e2]; omega

theorem pair_induction {α : Type} {P : List α → Prop} (h0 : P []) (h1 : ∀ a, P [a])
    (h2 : ∀ a b r, P r → P (a :: b :: r)) : ∀ l, P l
  | [] => h0
  | [a] => h1 a
  | a :: b :: r => h2 a b r (pair_induction h0 h1 h2 r)

theorem forBody_pair (add : Adder) (data pre r : List Byte) (a b : Byte) (len base i : Nat)
    (s : Fletcher16) (hdata : data = pre ++ a :: b :: r) (hpre : pre.length = base + i)
    (hlen : i + 1 ≠ len) :
    forBody add data len base i s =
      (add s.c0 (a.val + 256 * b.val)).bind fun c0 =>
        (add s.c1 c0).bind fun c1 => some { s with c0 := c0, c1 := c1 } := by
  subst hdata
  have e1 : (pre ++ a :: b :: r)[base + i]? = some a := by
    rw [← hpre, List.getElem?_append_right (Nat.le_refl _)]; simp
  have e2 : (pre ++ a :: b :: r)[base + i + 1]? = some b := by
    rw [← hpre, List.getElem?_append_right (Nat.le_add_right _ _)]; simp
  simp only [forBody, hlen, ne_eq, not_false_eq_true, if_true, e1, e2, word_eq]
  rfl

theorem forBody_last (add : Adder) (data pre r : List Byte) (a : Byte) (len base i : Nat)
    (s : Fletcher16) (hdata : data = pre ++ a :: r) (hpre : pre.length = base + i)
    (hlen : i + 1 = len) :
    forBody add data len base i s = some { s with overflow_byte := some a } := by
  subst hdata
  have e1 : (pre ++ a :: r)[i + base]? = some a := by
    rw [Nat.add_comm, ← hpre, List.getElem?_append_right (Nat.le_refl _)]; simp
  simp only [forBody, hlen, ne_eq, not_true_eq_false, if_false, e1]
  rfl

theorem byte_word_le (a b : Byte) : a.val + 256 * b.val ≤ 65535 := by
  have ha := a.isLt
  have hb := b.isLt
  omega

/-- The `for` loop under trapping addition: it never traps while there is room,
and leaves the unbounded sums of the pairs it went through. -/
theorem forLoop_checked (data post : List Byte) (len base blocklen : Nat)
    (hlen : len = blocklen + post.length) :
    ∀ (rem pre : List Byte) (i fuel : Nat) (s : Fletcher16),
      data = pre ++ (rem ++ post) → pre.length = base + i → i + rem.length = blocklen →
      (rem.length % 2 = 1 → post = []) → rem.length < fuel →
      Fits s.c0 s.c1 (rem.length / 2) →
      forLoop add_checked data len base blocklen fuel i s =
        some ⟨(bulk s.c0 s.c1 rem).1, (bulk s.c0 s.c1 rem).2, lastOdd s.overflow_byte rem⟩ := by
  intro rem
  induction rem using pair_induction with
  | h0 =>
    intro pre i fuel s _ _ hi _ hf _
    obtain ⟨f, rfl⟩ : ∃ f, fuel = f + 1 := ⟨fuel - 1, by simp at hf; omega⟩
    simp at hi
    simp [forLoop, bulk, lastOdd, hi]
  | h1 a =>
    intro pre i fuel s hd hp hi ho hf _
    obtain ⟨f, rfl⟩ : ∃ f, fuel = f + 2 := ⟨fuel - 2, by simp at hf; omega⟩
    have hpost : post = [] := ho (by simp)
    subst hpost
    simp at hi hlen
    have hb := forBody_last add_checked data pre [] a len base i s (by simpa using hd) hp (by omega)
    have hlt : i < blocklen := by omega
    have hge : ¬ (i + 2 < blocklen) := by omega
    simp [forLoop, hlt, hge, hb, bulk, lastOdd]
  | h2 a b r ih =>
    intro pre i fuel s hd hp hi ho hf hfit
    obtain ⟨f, rfl⟩ : ∃ f, fuel = f + 1 := ⟨fuel - 1, by simp at hf; omega⟩
    simp only [List.length_cons] at hi ho hf hfit
    have hb := forBody_pair add_checked data pre (r ++ post) a b len base i s
      (by simpa using hd) hp (by omega)
    have hlt : i < blocklen := by omega
    have hm : (r.length + 1 + 1) / 2 = r.length / 2 + 1 := by omega
    rw [hm] at hfit
    obtain ⟨f0, f1, f2⟩ := fits_step hfit (byte_word_le a b)
    have ih' := ih (pre ++ [a, b]) (i + 2) f
      ⟨s.c0 + (a.val + 256 * b.val), s.c1 + (s.c0 + (a.val + 256 * b.val)), s.overflow_byte⟩
      (by simpa using hd) (by simp; omega) (by omega) (fun h => ho (by omega)) (by omega) f2
    rw [forLoop, if_pos hlt, hb]
    simp only [add_checked, f0, f1, if_true, Option.some_bind, Option.bind_eq_bind]
    rw [ih']
    simp [bulk, lastOdd]

theorem absorb_nil (s : Fletcher16) : s.absorb [] = s := rfl

theorem absorb_cons (s : Fletcher16) (b : Byte) (l : List Byte) :
    s.absorb (b :: l) = (s.push b).absorb l := rfl

theorem absorb_append (s : Fletcher16) (a b : List Byte) :
    s.absorb (a ++ b) = (s.absorb a).absorb b := by
  simp [Fletcher16.absorb, List.foldl_append]

theorem absorb_pairs (l : List Byte) : ∀ (c0 c1 : Nat),
    Fletcher16.absorb ⟨c0 % FLETCHER_16_MODULO, c1 % FLETCHER_16_MODULO, none⟩ l =
      ⟨(bulk c0 c1 l).1 % FLETCHER_16_MODULO, (bulk c0 c1 l).2 % FLETCHER_16_MODULO,
        lastOdd none l⟩ := by
  induction l using pair_induction with
  | h0 => intro c0 c1; rfl
  | h1 a => intro c0 c1; rfl
  | h2 a b r ih =>
    intro c0 c1
    have e := ih (c0 + (a.val + 256 * b.val)) (c1 + (c0 + (a.val + 256 * b.val)))
    rw [absorb_cons, absorb_cons, bulk, lastOdd, ← e]
    congr 1
    simp only [Fletcher16.push, FLETCHER_16_MODULO, Fletcher16.mk.injEq, and_true]
    omega

theorem lastOdd_even (l : List Byte) : l.length % 2 = 0 → lastOdd none l = none := by
  induction l using pair_induction with
  | h0 => intro _; rfl
  | h1 a => intro h; simp at h
  | h2 a b r ih => intro h; rw [lastOdd]; apply ih; simp at h; omega

theorem absorb_reduced_none (s : Fletcher16) (h : s.Reduced) (hp : s.overflow_byte = none)
    (l : List Byte) :
    s.absorb l = ⟨(bulk s.c0 s.c1 l).1 % FLETCHER_16_MODULO,
      (bulk s.c0 s.c1 l).2 % FLETCHER_16_MODULO, lastOdd none l⟩ := by
  rw [← absorb_pairs]
  obtain ⟨c0, c1, o⟩ := s
  simp only [Fletcher16.Reduced] at h
  simp only at hp
  subst hp
  rw [Nat.mod_eq_of_lt h.1, Nat.mod_eq_of_lt h.2]

/-- The `while` loop under trapping addition, from a reduced state with no
pending byte: it consumes the rest of the span like the byte-wise reference. -/
theorem whileLoop_checked (data : List Byte) (io : Nat) :
    ∀ (fuel : Nat) (rest pre : List Byte) (iterations : Nat) (s : Fletcher16),
      data = pre ++ rest → pre.length = iterations * FLETCHER_16_MAX_BULK_SIZE + io →
      rest.length < fuel → s.Reduced → s.overflow_byte = none →
      whileLoop add_checked data io fuel rest.length iterations s = some (s.absorb rest) := by
  intro fuel
  induction fuel with
  | zero => intro rest pre it s _ _ hf; omega
  | succ f ih =>
    intro rest pre it s hd hp hf hr ho
    by_cases hlen : rest.length > 0
    · rw [whileLoop, if_pos hlen]
      simp only []
      generalize hbl : (if rest.length ≥ FLETCHER_16_MAX_BULK_SIZE then FLETCHER_16_MAX_BULK_SIZE
        else rest.length) = blocklen
      have hble : blocklen ≤ rest.length := by
        rw [← hbl]; split <;> omega
      have hbl720 : blocklen ≤ 720 := by
        rw [← hbl]; simp only [FLETCHER_16_MAX_BULK_SIZE]; split <;> omega
      have hbpos : 0 < blocklen := by
        rw [← hbl]; simp only [FLETCHER_16_MAX_BULK_SIZE]; split <;> omega
      have hpar : blocklen % 2 = 1 → blocklen = rest.length := by
        rw [← hbl]; simp only [FLETCHER_16_MAX_BULK_SIZE]; split <;> omega
      have htl : (rest.take blocklen).length = blocklen := by
        rw [List.length_take]; omega
      have hdl : (rest.drop blocklen).length = rest.length - blocklen := List.length_drop _ _
      have hfl := forLoop_checked data (rest.drop blocklen) rest.length
        (it * FLETCHER_16_MAX_BULK_SIZE + io) blocklen (by rw [hdl]; omega)
        (rest.take blocklen) pre 0 (blocklen + 1) s
        (by rw [List.take_append_drop]; exact hd) (by simpa using hp) (by omega)
        (by
          intro h
          rw [htl] at h
          have := hpar h
          apply List.eq_nil_of_length_eq_zero
          rw [hdl]; omega)
        (by omega)
        (fits_of_reduced hr.1 hr.2 (by rw [htl]; omega))
      rw [hfl, ho]
      simp only [Option.some_bind]
      have hab := absorb_reduced_none s hr ho (rest.take blocklen)
      rw [← hab]
      by_cases hpost : rest.length - blocklen = 0
      · obtain ⟨f', rfl⟩ : ∃ f', f = f' + 1 := ⟨f - 1, by omega⟩
        rw [hpost, whileLoop, if_neg (by omega)]
        have : rest.take blocklen = rest := List.take_of_length_le (by omega)
        rw [this]
      · have hb : blocklen = 720 := by
          rw [← hbl] at hpost ⊢
          simp only [FLETCHER_16_MAX_BULK_SIZE] at hpost ⊢
          split at hpost <;> simp_all
        have hih := ih (rest.drop blocklen) (pre ++ rest.take blocklen) (it + 1)
          (s.absorb (rest.take blocklen))
          (by rw [List.append_assoc, List.take_append_drop]; exact hd)
          (by rw [List.length_append, htl, hp, hb]; simp only [FLETCHER_16_MAX_BULK_SIZE]; omega)
          (by rw [hdl]; omega)
          (by rw [hab]; exact ⟨Nat.mod_lt _ (by decide), Nat.mod_lt _ (by decide)⟩)
          (by rw [hab]; exact lastOdd_even _ (by rw [htl, hb]))
        rw [hdl] at hih
        rw [hih, ← absorb_append, List.take_append_drop]
    · have h0 : rest = [] := List.eq_nil_of_length_eq_zero (by omega)
      subst h0
      simp [whileLoop, absorb_nil]

theorem push_reduced (s : Fletcher16) (b : Byte) (h : s.Reduced) : (s.push b).Reduced := by
  unfold Fletcher16.push
  cases ho : s.overflow_byte with
  | none => exact h
  | some p => exact ⟨Nat.mod_lt _ (by decide), Nat.mod_lt _ (by decide)⟩

theorem absorb_reduced (s : Fletcher16) (h : s.Reduced) (l : List Byte) :
    (s.absorb l).Reduced := by
  induction l generalizing s with
  | nil => exact h
  | cons b l ih => exact ih _ (push_reduced s b h)

/-- Under trapping addition `update` never traps from a reduced state, and
agrees with the byte-wise reference. -/
theorem updateWith_checked (s : Fletcher16) (d : List Byte) (h : s.Reduced) :
    s.updateWith add_checked d = some (s.absorb d) := by
  cases d with
  | nil => rfl
  | cons d0 t =>
    rw [Fletcher16.updateWith, if_neg (by simp)]
    cases ho : s.overflow_byte with
    | none =>
      have hw := whileLoop_checked (d0 :: t) 0 ((d0 :: t).length + 1) (d0 :: t) [] 0 s rfl
        (by simp) (by omega) h ho
      simp only [pendingStep, ho, Option.pure_def, Option.some_bind, Nat.sub_zero]
      exact hw
    | some p =>
      obtain ⟨h0, h1⟩ := h
      simp only [FLETCHER_16_MODULO] at h0 h1
      have hb := byte_word_le p d0
      have hm : (s.c0 + (p.val + 256 * d0.val)) % 65535 < 65535 := Nat.mod_lt _ (by decide)
      have hpush : s.push d0 = ⟨(s.c0 + (p.val + 256 * d0.val)) % 65535,
          (s.c1 + (s.c0 + (p.val + 256 * d0.val)) % 65535) % 65535, none⟩ := by
        simp [Fletcher16.push, ho, FLETCHER_16_MODULO]
      have hps : pendingStep add_checked (d0 :: t) s = some (s.push d0, 1) := by
        have a0 : s.c0 + (p.val + 256 * d0.val) < 2 ^ 32 := by omega
        have a1 : s.c1 + (s.c0 + (p.val + 256 * d0.val)) % 65535 < 2 ^ 32 := by omega
        simp only [pendingStep, ho, List.getElem?_cons_zero, word_eq, add_checked,
          Option.bind_eq_bind, Option.some_bind, a0, a1, if_true, FLETCHER_16_MODULO, hpush]
        rfl
      have hw := whileLoop_checked (d0 :: t) 1 ((d0 :: t).length + 1) t [d0] 0 (s.push d0) rfl
        (by simp) (by simp; omega) (push_reduced s d0 ⟨h0, h1⟩) (by rw [hpush])
      rw [hps]
      simp only [Option.some_bind, List.length_cons, Nat.add_sub_cancel]
      rw [absorb_cons]
      exact hw

/-! ### One addition in place of another -/

theorem forBody_mono {add1 add2 : Adder} (h : ∀ a b r, add1 a b = some r → add2 a b = some r)
    (data : List Byte) (len base i : Nat) (s r : Fletcher16)
    (hr : forBody add1 data len base i s = some r) :
    forBody add2 data len base i s = some r := by
  unfold forBody at hr ⊢
  split
  · rename_i hc
    rw [if_pos hc] at hr
    simp only [Option.bind_eq_bind, Option.bind_eq_some, Option.pure_def] at hr ⊢
    obtain ⟨b0, hb0, b1, hb1, c0, hc0, c1, hc1, hres⟩ := hr
    exact ⟨b0, hb0, b1, hb1, c0, h _ _ _ hc0, c1, h _ _ _ hc1, hres⟩
  · rename_i hc
    rw [if_neg hc] at hr
    exact hr

theorem forLoop_mono {add1 add2 : Adder} (h : ∀ a b r, add1 a b = some r → add2 a b = some r)
    (data : List Byte) (len base blocklen : Nat) :
    ∀ (fuel i : Nat) (s r : Fletcher16),
      forLoop add1 data len base blocklen fuel i s = some r →
      forLoop add2 data len base blocklen fuel i s = some r := by
  intro fuel
  induction fuel with
  | zero => intro i s r hr; simp [forLoop] at hr
  | succ f ih =>
    intro i s r hr
    rw [forLoop] at hr ⊢
    split
    · rename_i hc
      rw [if_pos hc] at hr
      rw [Option.bind_eq_some] at hr ⊢
      obtain ⟨s1, hs1, hr1⟩ := hr
      exact ⟨s1, forBody_mono h _ _ _ _ _ _ hs1, ih _ _ _ hr1⟩
    · rename_i hc
      rw [if_neg hc] at hr
      exact hr

theorem whileLoop_mono {add1 add2 : Adder} (h : ∀ a b r, add1 a b = some r → add2 a b = some r)
    (data : List Byte) (io : Nat) :
    ∀ (fuel len it : Nat) (s r : Fletcher16),
      whileLoop add1 data io fuel len it s = some r →
      whileLoop add2 data io fuel len it s = some r := by
  intro fuel
  induction fuel with
  | zero => intro len it s r hr; simp [whileLoop] at hr
  | succ f ih =>
    intro len it s r hr
    rw [whileLoop] at hr ⊢
    split
    · rename_i hc
      rw [if_pos hc] at hr
      simp only [Option.bind_eq_some] at hr ⊢
      obtain ⟨s1, hs1, hr1⟩ := hr
      exact ⟨s1, forLoop_mono h _ _ _ _ _ _ _ _ hs1, ih _ _ _ _ hr1⟩
    · rename_i hc
      rw [if_neg hc] at hr
      exact hr

theorem pendingStep_mono {add1 add2 : Adder}
    (h : ∀ a b r, add1 a b = some r → add2 a b = some r)
    (data : List Byte) (s : Fletcher16) (r : Fletcher16 × Nat)
    (hr : pendingStep add1 data s = some r) : pendingStep add2 data s = some r := by
  unfold pendingStep at hr ⊢
  cases ho : s.overflow_byte with
  | none => simpa [ho] using hr
  | some p =>
    simp only [ho, Option.bind_eq_bind, Option.bind_eq_some, Option.pure_def] at hr ⊢
    obtain ⟨d0, hd0, t0, ht0, t1, ht1, hres⟩ := hr
    exact ⟨d0, hd0, t0, h _ _ _ ht0, t1, h _ _ _ ht1, hres⟩

theorem updateWith_mono {add1 add2 : Adder}
    (h : ∀ a b r, add1 a b = some r → add2 a b = some r)
    (s : Fletcher16) (d : List Byte) (r : Fletcher16)
    (hr : s.updateWith add1 d = some r) : s.updateWith add2 d = some r := by
  unfold Fletcher16.updateWith at hr ⊢
  split
  · rename_i hc
    rw [if_pos hc] at hr
    exact hr
  · rename_i hc
    rw [if_neg hc] at hr
    rw [Option.bind_eq_some] at hr ⊢
    obtain ⟨p, hp, hw⟩ := hr
    exact ⟨p, pendingStep_mono h _ _ _ hp, whileLoop_mono h _ _ _ _ _ _ _ hw⟩

theorem add_checked_u32 (a b r : Nat) (h : add_checked a b = some r) : add_u32 a b = some r := by
  unfold add_checked at h
  unfold add_u32
  split at h
  · rename_i hlt
    simp only [Option.some.injEq] at h
    subst h
    rw [Nat.mod_eq_of_lt hlt]
  · simp at h

theorem add_checked_unbounded (a b r : Nat) (h : add_checked a b = some r) :
    add_unbounded a b = some r := by
  unfold add_checked at h
  unfold add_unbounded
  split at h
  · exact h
  · simp at h

/-- From a reduced state `update` returns, and returns what the byte-wise
reference gives. -/
theorem update_eq_absorb (s : Fletcher16) (d : List Byte) (h : s.Reduced) :
    s.update d = some (s.absorb d) :=
  updateWith_mono add_checked_u32 s d _ (updateWith_checked s d h)

theorem or_shift_eq (x y : Nat) (hx : x < 65536) (hy : y < 65536) :
    x ||| ((y <<< 16) % 2 ^ 32) = x + 65536 * y := by
  have h := Nat.mul_add_lt_is_or (i := 16) (b := x) (by omega) y
  rw [Nat.shiftLeft_eq, Nat.mod_eq_of_lt (by omega), Nat.or_comm, Nat.mul_comm, ← h]
  omega

theorem get_none (s : Fletcher16) (h : s.overflow_byte = none) :
    s.get = s.c0 ||| ((s.c1 <<< 16) % 2 ^ 32) := by
  simp [Fletcher16.get, Fletcher16.get_call, h]

theorem get_some (s : Fletcher16) (p : Byte) (h : s.overflow_byte = some p) :
    s.get = ((s.c0 + p.val) % 2 ^ 32 % 65535) |||
      ((((s.c1 + (s.c0 + p.val) % 2 ^ 32 % 65535) % 2 ^ 32 % 65535) <<< 16) % 2 ^ 32) := by
  simp [Fletcher16.get, Fletcher16.get_call, h, FLETCHER_16_MODULO]

theorem get_absorb_full (l : List Byte) : ∀ (c0 c1 : Nat),
    (Fletcher16.absorb ⟨c0 % 65535, c1 % 65535, none⟩ l).get =
      (full c0 c1 l).1 % 65535 + 65536 * ((full c0 c1 l).2 % 65535) := by
  induction l using pair_induction with
  | h0 =>
    intro c0 c1
    rw [absorb_nil, get_none _ rfl, full]
    have h0 : c0 % 65535 < 65535 := Nat.mod_lt _ (by decide)
    have h1 : c1 % 65535 < 65535 := Nat.mod_lt _ (by decide)
    exact or_shift_eq _ _ (by show c0 % 65535 < 65536; omega) (by show c1 % 65535 < 65536; omega)
  | h1 a =>
    intro c0 c1
    have ha := a.isLt
    rw [absorb_cons, absorb_nil, get_some _ a rfl, full]
    simp only [Fletcher16.push]
    rw [or_shift_eq _ _ (by omega) (by omega)]
    omega
  | h2 a b r ih =>
    intro c0 c1
    have e := ih (c0 + (a.val + 256 * b.val)) (c1 + (c0 + (a.val + 256 * b.val)))
    rw [absorb_cons, absorb_cons, full, ← e]
    congr 2
    simp only [Fletcher16.push, FLETCHER_16_MODULO, Fletcher16.mk.injEq, and_true]
    omega

theorem refCount_cons2 (a b : Byte) (r : List Byte) :
    refCount (a :: b :: r) = refCount r + 1 := by
  simp only [refCount, List.length_cons]; omega

theorem refWord_zero (a b : Byte) (r : List Byte) :
    refWord (a :: b :: r) 0 = a.val + 256 * b.val := rfl

theorem refWord_succ (a b : Byte) (r : List Byte) (j : Nat) :
    refWord (a :: b :: r) (j + 1) = refWord r j := by
  simp only [refWord]
  have e1 : 2 * (j + 1) = 2 * j + 1 + 1 := by ring
  rw [e1]
  simp [List.getD_cons_succ]

theorem sum_const_add (w : Nat) (f : Nat → Nat) (n : Nat) :
    ((List.range n).map fun k => w + f k).sum = n * w + ((List.range n).map f).sum := by
  induction n with
  | zero => simp
  | succ k ih => rw [List.sum_range_succ, List.sum_range_succ, ih]; ring

/-- The recursive sums are the indexed sums of the reference. -/
theorem full_eq_ref (l : List Byte) : ∀ (c0 c1 : Nat),
    full c0 c1 l = (c0 + refTotal0 l, c1 + refCount l * c0 + refTotal1 l) := by
  induction l using pair_induction with
  | h0 => intro c0 c1; simp [full, refTotal0, refTotal1, refCount]
  | h1 a =>
    intro c0 c1
    simp [full, refTotal0, refTotal1, refCount, refWord, List.range_succ]
    omega
  | h2 a b r ih =>
    intro c0 c1
    rw [full, ih]
    have hw : ∀ k, ((List.range (k + 1)).map (refWord (a :: b :: r))).sum =
        (a.val + 256 * b.val) + ((List.range k).map (refWord r)).sum := by
      intro k
      rw [List.sum_range_succ']
      simp only [refWord_zero, Nat.succ_eq_add_one, refWord_succ]
    have h0 : refTotal0 (a :: b :: r) = (a.val + 256 * b.val) + refTotal0 r := by
      simp only [refTotal0, refCount_cons2]
      exact hw _
    have h1 : refTotal1 (a :: b :: r) =
        (refCount r + 1) * (a.val + 256 * b.val) + refTotal1 r := by
      simp only [refTotal1, refCount_cons2]
      simp only [hw]
      rw [sum_const_add, List.sum_range_succ']
      simp
    rw [h0, h1, refCount_cons2]
    congr 1 <;> ring

theorem create_reduced : Fletcher16.create.Reduced := by decide

theorem updateAll_eq_absorb (chunks : List (List Byte)) : ∀ (s : Fletcher16), s.Reduced →
    s.updateAll chunks = some (s.absorb chunks.flatten) := by
  induction chunks with
  | nil => intro s _; rfl
  | cons d ds ih =>
    intro s h
    rw [Fletcher16.updateAll, update_eq_absorb s d h, Option.some_bind,
      ih _ (absorb_reduced s h d), List.flatten_cons, absorb_append]

theorem fletcher16_eq (d : List Byte) : fletcher16 d = some (Fletcher16.create.absorb d).get := by
  rw [fletcher16, update_eq_absorb _ _ create_reduced]; rfl

/-- C1. Chunk-invariance of Fletcher16: for every buffer `d` and every list of
consecutive slices (empty ones allowed) whose concatenation is `d`, feeding the
slices in order to a fresh accumulator and calling `get()` returns the value
that one `update(d)` on a fresh accumulator followed by `get()` returns, and
that value is produced. -/
theorem chunk_invariance (d : List Byte) (chunks : List (List Byte))
    (hsplit : chunks.flatten = d) :
    (Fletcher16.create.updateAll chunks).map Fletcher16.get
        = (Fletcher16.create.update d).map Fletcher16.get ∧
      ((Fletcher16.create.update d).map Fletcher16.get).isSome = true := by
  subst hsplit
  rw [updateAll_eq_absorb _ _ create_reduced, update_eq_absorb _ _ create_reduced]
  exact ⟨rfl, rfl⟩

/-- Witness of C1 at `d = [1,2,3,4,5]` split as `[1],[2,3],[4,5]`. -/
theorem chunk_invariance_witness :
    (Fletcher16.create.updateAll [[1], [2, 3], [4, 5]]).map Fletcher16.get
        = (Fletcher16.create.update [1, 2, 3, 4, 5]).map Fletcher16.get ∧
      ((Fletcher16.create.update [1, 2, 3, 4, 5]).map Fletcher16.get).isSome = true :=
  chunk_invariance [1, 2, 3, 4, 5] [[1], [2, 3], [4, 5]] (by decide)

/-- C2. Reference equivalence: `fletcher16(d)` returns `s0 + 65536*s1`, where
`s0` is the sum of the little-endian words of `d` (a missing final byte counts
as 0) and `s1` the sum of the running sums of the words, both taken in
unbounded integers and reduced modulo 65535 at the end. -/
theorem fletcher16_reference_equivalence (d : List Byte) :
    fletcher16 d = some (fletcher16_reference d) := by
  rw [fletcher16_eq]
  have h := get_absorb_full d 0 0
  rw [full_eq_ref] at h
  simp only [Nat.zero_mod, Nat.zero_add, Nat.mul_zero, Nat.add_zero] at h
  rw [fletcher16_reference, ← h]
  rfl

theorem fletcher16_example : fletcher16 [0x01, 0x02] = some 0x02010201 := by decide

/-- C3. No 32-bit overflow under the 720-byte bulk limit: from a state with
`c0 < 65535` and `c1 < 65535`, `update` run with trapping addition never traps
(no intermediate value of `c0` or `c1` exceeds `2^32 - 1`), so the run with
`uint32` wrap-around returns exactly the state of the run in unbounded
integers. -/
theorem update_no_overflow (s : Fletcher16) (d : List Byte) (hs : s.Reduced) :
    s.update_checked d = s.update d ∧ s.update_unbounded d = s.update d ∧
      (s.update_checked d).isSome = true := by
  have hc := updateWith_checked s d hs
  have hu : s.update d = some (s.absorb d) := update_eq_absorb s d hs
  have hn : s.update_unbounded d = some (s.absorb d) :=
    updateWith_mono add_checked_unbounded s d _ hc
  rw [Fletcher16.update_checked, hc, hu, hn]
  exact ⟨rfl, rfl, rfl⟩

/-- Witness of C3 at the state `c0 = c1 = 65534` and an all-`0xFF` slice. -/
theorem update_no_overflow_witness :
    (⟨65534, 65534, none⟩ : Fletcher16).Reduced ∧
      (⟨65534, 65534, none⟩ : Fletcher16).update_checked [255, 255, 255, 255]
        = (⟨65534, 65534, none⟩ : Fletcher16).update [255, 255, 255, 255] ∧
      (⟨65534, 65534, none⟩ : Fletcher16).update_unbounded [255, 255, 255, 255]
        = (⟨65534, 65534, none⟩ : Fletcher16).update [255, 255, 255, 255] ∧
      ((⟨65534, 65534, none⟩ : Fletcher16).update_checked [255, 255, 255, 255]).isSome = true :=
  ⟨by decide, update_no_overflow ⟨65534, 65534, none⟩ [255, 255, 255, 255] (by decide)⟩

/-- C4. `reset` restores the fresh state: the state after `reset()` is the
freshly constructed one whatever the accumulator held, so `reset()`, `update(x)`,
`get()` returns what a fresh accumulator returns after `update(x)`, `get()`. -/
theorem reset_restores_fresh (s : Fletcher16) (x : List Byte) :
    s.reset = Fletcher16.create ∧
      (s.reset.update x).map Fletcher16.get = fletcher16 x ∧
      (fletcher16 x).isSome = true := by
  refine ⟨rfl, rfl, ?_⟩
  rw [fletcher16_eq]; rfl

/-- C5. The checksum of an empty input is 0: `get()` on a fresh accumulator
returns 0 and `fletcher16` of the empty slice returns 0. -/
theorem checksum_empty : Fletcher16.create.get = 0 ∧ fletcher16 [] = some 0 := by
  constructor <;> decide

/-- C6. `update` with an empty slice is a no-op on the whole state: `c0`, `c1`
and the pending byte (present or not) are returned as they were. -/
theorem update_empty_noop (s : Fletcher16) : s.update [] = some s := rfl

theorem absorb_pending (l : List Byte) : ∀ (s : Fletcher16), s.overflow_byte = none →
    ((s.absorb l).overflow_byte.isSome = true ↔ l.length % 2 = 1) := by
  induction l using pair_induction with
  | h0 => intro s h; simp [absorb_nil, h]
  | h1 a => intro s h; simp [absorb_cons, absorb_nil, Fletcher16.push, h]
  | h2 a b r ih =>
    intro s h
    rw [absorb_cons, absorb_cons, ih _ (by simp [Fletcher16.push, h])]
    simp only [List.length_cons]
    omega

theorem get_push_zero (s : Fletcher16) (p : Byte) (hp : s.overflow_byte = some p)
    (hs : s.Reduced) : (s.push 0).get = s.get := by
  obtain ⟨h0, h1⟩ := hs
  simp only [FLETCHER_16_MODULO] at h0 h1
  have hb := p.isLt
  rw [get_some s p hp, get_none _ (by simp [Fletcher16.push, hp])]
  simp only [Fletcher16.push, hp, FLETCHER_16_MODULO, Fin.val_zero, Nat.mul_zero, Nat.add_zero]
  rw [Nat.mod_eq_of_lt (show s.c0 + p.val < 2 ^ 32 by omega),
    Nat.mod_eq_of_lt (show s.c1 + (s.c0 + p.val) % 65535 < 2 ^ 32 by omega)]

/-- C7. Phantom-zero folding: (1) for a state with `c0 < 65535`, `c1 < 65535`
and a pending byte, `update([0x00])` returns a state on which `get()` gives the
value `get()` gives on the state itself; (2) for an odd-length buffer `x`,
`fletcher16(x) = fletcher16(x ++ [0x00])`; (3) with no pending byte `get()`
returns `c0 | (c1 << 16)` in `uint32` arithmetic. -/
theorem phantom_zero_folding (s : Fletcher16) (x : List Byte) :
    (s.Reduced → s.overflow_byte.isSome = true →
      (s.update [0]).map Fletcher16.get = some s.get) ∧
    (x.length % 2 = 1 →
      fletcher16 x = fletcher16 (x ++ [0]) ∧ (fletcher16 x).isSome = true) ∧
    (s.overflow_byte = none → s.get = s.c0 ||| ((s.c1 <<< 16) % 2 ^ 32)) := by
  refine ⟨?_, ?_, get_none s⟩
  · intro hs hp
    obtain ⟨p, hp⟩ := Option.isSome_iff_exists.mp hp
    rw [update_eq_absorb s _ hs, absorb_cons, absorb_nil, Option.map_some',
      get_push_zero s p hp hs]
  · intro hx
    rw [fletcher16_eq, fletcher16_eq, absorb_append, absorb_cons, absorb_nil]
    refine ⟨?_, rfl⟩
    have hp := (absorb_pending x Fletcher16.create rfl).mpr hx
    obtain ⟨p, hp⟩ := Option.isSome_iff_exists.mp hp
    rw [get_push_zero _ p hp (absorb_reduced _ create_reduced x)]

/-- Witness of C7 at the state `(1, 2, pending 3)` and the buffer `[1,2,3]`. -/
theorem phantom_zero_folding_witness :
    ((⟨1, 2, some 3⟩ : Fletcher16).update [0]).map Fletcher16.get
        = some (⟨1, 2, some 3⟩ : Fletcher16).get ∧
      (fletcher16 [1, 2, 3] = fletcher16 ([1, 2, 3] ++ [0]) ∧
        (fletcher16 [1, 2, 3]).isSome = true) ∧
      (⟨1, 2, none⟩ : Fletcher16).get = 1 ||| ((2 <<< 16) % 2 ^ 32) :=
  ⟨(phantom_zero_folding ⟨1, 2, some 3⟩ [1, 2, 3]).1 (by decide) (by decide),
   (phantom_zero_folding ⟨1, 2, some 3⟩ [1, 2, 3]).2.1 (by decide),
   (phantom_zero_folding ⟨1, 2, none⟩ [1, 2, 3]).2.2 rfl⟩

/-- C8. `get()` is a read-only projection: the object after the call is the
object before it, so on a fresh accumulator `update(a); get(); update(b); get()`
returns as its final value what `update(a); update(b); get()` returns, and that
value is produced. -/
theorem get_read_only (s : Fletcher16) (a b : List Byte) :
    s.get_call.2 = s ∧
    ((Fletcher16.create.update a).bind fun s1 =>
        (s1.get_call.2.update b).map fun s2 => s2.get_call.1)
      = ((Fletcher16.create.update a).bind fun s1 =>
        (s1.update b).map fun s2 => s2.get_call.1) ∧
    ((Fletcher16.create.update a).bind fun s1 =>
        (s1.update b).map fun s2 => s2.get_call.1).isSome = true := by
  have hro : ∀ t : Fletcher16, t.get_call.2 = t := by
    intro t
    unfold Fletcher16.get_call
    cases t.overflow_byte <;> rfl
  refine ⟨hro s, ?_, ?_⟩
  · simp only [hro]
  · rw [update_eq_absorb _ _ create_reduced, Option.some_bind,
      update_eq_absorb _ _ (absorb_reduced _ create_reduced a)]
    rfl

/-! ### The parser: one pass of the loop -/

theorem match_intron_spec (intron : List Byte) : ∀ (input : List Byte) (r : Nat),
    (match_intron intron r input).2.2.length ≤ input.length ∧
    (match_intron intron r input).2.1 + (match_intron intron r input).2.2.length
      ≤ r + input.length ∧
    ((match_intron intron r input).1 = true →
      (match_intron intron r input).2.2.length < input.length ∧
      (match_intron intron r input).2.1 = intron.length) ∧
    ((match_intron intron r input).1 = false → (match_intron intron r input).2.2 = []) := by
  intro input
  induction input with
  | nil => intro r; simp [match_intron]
  | cons b rest ih =>
    intro r
    rw [match_intron]
    generalize hr1 : (if intron[r]? = some b then (r + 1) % 2 ^ 16
      else if intron[0]? = some b then 1 else 0) = read1
    have hle : read1 ≤ r + 1 := by
      rw [← hr1]
      split
      · exact Nat.mod_le _ _
      · split <;> omega
    by_cases hfull : read1 = intron.length
    · rw [if_pos hfull]
      simp only [List.length_cons]
      refine ⟨by omega, by omega, fun _ => ⟨by omega, hfull⟩, fun h => by simp at h⟩
    · rw [if_neg hfull]
      obtain ⟨h1, h2, h3, h4⟩ := ih read1
      simp only [List.length_cons]
      refine ⟨by omega, by omega, fun h => ⟨by have := (h3 h).1; omega, (h3 h).2⟩, h4⟩

theorem reset_reduced (s : Fletcher16) : s.reset.Reduced := by
  show (0 : Nat) < FLETCHER_16_MODULO ∧ (0 : Nat) < FLETCHER_16_MODULO
  decide

theorem run_intron (c : Collaborator) (fuel : Nat) (s : RxParserBase)
    (h : s.state = State.Intron) :
    RxParserBase.run c (fuel + 1) s =
      if s.wait_for_intron.1 then
        with_hooks s.wait_for_intron.2.intron_found.2
          (RxParserBase.run c fuel s.wait_for_intron.2.intron_found.1)
      else some (s.wait_for_intron.2, []) := by
  rw [RxParserBase.run]; simp only [h]; rfl

theorem run_header (c : Collaborator) (fuel : Nat) (s : RxParserBase)
    (h : s.state = State.Header) :
    RxParserBase.run c (fuel + 1) s =
      (s.wait_for_buffer c).bind fun r =>
        if r.1 then
          with_hooks (r.2.header_complete c).2 (RxParserBase.run c fuel (r.2.header_complete c).1)
        else some (r.2, []) := by
  rw [RxParserBase.run]; simp only [h]; rfl

theorem run_data (c : Collaborator) (fuel : Nat) (s : RxParserBase)
    (h : s.state = State.Data) :
    RxParserBase.run c (fuel + 1) s =
      (s.wait_for_data c).bind fun r =>
        if r.1 then
          with_hooks (r.2.2 ++ (r.2.1.on_parsed c).2)
            (RxParserBase.run c fuel (r.2.1.on_parsed c).1)
        else some (r.2.1, r.2.2) := by
  rw [RxParserBase.run]; simp only [h]; rfl

theorem run_throw (c : Collaborator) (fuel : Nat) (s : RxParserBase)
    (h : s.state = State.ThrowAwayData) :
    RxParserBase.run c (fuel + 1) s =
      if (s.throw_away_data c).1 then
        with_hooks (s.throw_away_data c).2.drain_complete.2
          (RxParserBase.run c fuel (s.throw_away_data c).2.drain_complete.1)
      else some ((s.throw_away_data c).2, []) := by
  rw [RxParserBase.run]; simp only [h]; rfl

theorem wait_for_buffer_eq (c : Collaborator) (s : RxParserBase) (h : s.fl16.Reduced) :
    s.wait_for_buffer c = some
      (decide ((s.read + min s.input.length (c.header_size - s.read)) % 2 ^ 16 = c.header_size),
       { s with
         fl16 := s.fl16.absorb (s.input.take (min s.input.length (c.header_size - s.read)))
         buffer := s.buffer ++ s.input.take (min s.input.length (c.header_size - s.read))
         input := s.input.drop (min s.input.length (c.header_size - s.read))
         read := (s.read + min s.input.length (c.header_size - s.read)) % 2 ^ 16 }) := by
  simp only [RxParserBase.wait_for_buffer, update_eq_absorb _ _ h, Option.bind_eq_bind,
    Option.some_bind, Option.pure_def]

theorem wait_for_data_eq (c : Collaborator) (s : RxParserBase) (h : s.fl16.Reduced) :
    s.wait_for_data c = some
      (decide ((s.read + min s.input.length (c.declared_length s.msg - s.read)) % 2 ^ 16
          = c.declared_length s.msg),
       { s with
         fl16 := s.fl16.absorb
           (s.input.take (min s.input.length (c.declared_length s.msg - s.read)))
         input := s.input.drop (min s.input.length (c.declared_length s.msg - s.read))
         read := (s.read + min s.input.length (c.declared_length s.msg - s.read)) % 2 ^ 16 },
       if min s.input.length (c.declared_length s.msg - s.read) = 0 then []
       else [Hook.update_packet
           (s.input.take (min s.input.length (c.declared_length s.msg - s.read)))]) := by
  simp only [RxParserBase.wait_for_data, update_eq_absorb _ _ h, Option.bind_eq_bind,
    Option.some_bind, Option.pure_def]

theorem with_hooks_some (hs : List Hook) (q : RxParserBase × List Hook) :
    with_hooks hs (some q) = some (q.1, hs ++ q.2) := rfl

/-- With the fuel `process_data` supplies the loop returns, one more unit of
fuel changes nothing, and the accumulator stays reduced. -/
theorem run_ok (c : Collaborator) : ∀ (fuel : Nat) (s : RxParserBase),
    s.fl16.Reduced → 3 * s.input.length + s.state.rank ≤ fuel →
    ∃ r, RxParserBase.run c fuel s = some r ∧ RxParserBase.run c (fuel + 1) s = some r ∧
      r.1.fl16.Reduced := by
  intro fuel
  induction fuel with
  | zero =>
    intro s _ hb
    cases hs : s.state <;> simp [hs, State.rank] at hb
  | succ f ih =>
    intro s hred hb
    cases hs : s.state with
    | Intron =>
      rw [hs] at hb
      simp only [State.rank] at hb
      rw [run_intron c f s hs, run_intron c (f + 1) s hs]
      obtain ⟨h1, _, h3, _⟩ := match_intron_spec s.intron s.input s.read
      by_cases hf : s.wait_for_intron.1 = true
      · rw [if_pos hf, if_pos hf]
        have hlt := (h3 hf).1
        obtain ⟨r, hr1, hr2, hr3⟩ := ih s.wait_for_intron.2.intron_found.1
          (reset_reduced s.wait_for_intron.2.fl16) (by
            show 3 * (match_intron s.intron s.read s.input).2.2.length + 3 ≤ f
            omega)
        rw [hr1, hr2]
        exact ⟨_, rfl, rfl, hr3⟩
      · rw [if_neg hf, if_neg hf]
        exact ⟨_, rfl, rfl, hred⟩
    | Header =>
      rw [hs] at hb
      simp only [State.rank] at hb
      rw [run_header c f s hs, run_header c (f + 1) s hs, wait_for_buffer_eq c s hred]
      simp only [Option.some_bind]
      split
      · have hb' : 3 * (s.input.drop (min s.input.length (c.header_size - s.read))).length
            + 2 ≤ f := by
          rw [List.length_drop]; omega
        obtain ⟨r, h1, h2, h3⟩ := ih
          (RxParserBase.header_complete c { s with
            fl16 := s.fl16.absorb (s.input.take (min s.input.length (c.header_size - s.read)))
            buffer := s.buffer ++ s.input.take (min s.input.length (c.header_size - s.read))
            input := s.input.drop (min s.input.length (c.header_size - s.read))
            read := (s.read + min s.input.length (c.header_size - s.read)) % 2 ^ 16 }).1
          (absorb_reduced _ hred _)
          (by
            simp only [RxParserBase.header_complete]
            split <;> simpa [State.rank] using hb')
        rw [h1, h2]
        exact ⟨_, rfl, rfl, h3⟩
      · exact ⟨_, rfl, rfl, absorb_reduced _ hred _⟩
    | Data =>
      rw [hs] at hb
      simp only [State.rank] at hb
      rw [run_data c f s hs, run_data c (f + 1) s hs, wait_for_data_eq c s hred]
      simp only [Option.some_bind]
      split
      · have hb' : 3 * (s.input.drop
            (min s.input.length (c.declared_length s.msg - s.read))).length + 1 ≤ f := by
          rw [List.length_drop]; omega
        obtain ⟨r, h1, h2, h3⟩ := ih
          (RxParserBase.on_parsed c { s with
            fl16 := s.fl16.absorb
              (s.input.take (min s.input.length (c.declared_length s.msg - s.read)))
            input := s.input.drop (min s.input.length (c.declared_length s.msg - s.read))
            read := (s.read + min s.input.length (c.declared_length s.msg - s.read)) % 2 ^ 16 }).1
          (absorb_reduced _ hred _)
          (by simpa [RxParserBase.on_parsed, State.rank] using hb')
        rw [h1, h2]
        exact ⟨_, rfl, rfl, h3⟩
      · exact ⟨_, rfl, rfl, absorb_reduced _ hred _⟩
    | ThrowAwayData =>
      rw [hs] at hb
      simp only [State.rank] at hb
      rw [run_throw c f s hs, run_throw c (f + 1) s hs]
      split
      · have hb' : 3 * (s.input.drop
            (min s.input.length (c.declared_length s.msg - s.read))).length + 1 ≤ f := by
          rw [List.length_drop]; omega
        obtain ⟨r, h1, h2, h3⟩ := ih (s.throw_away_data c).2.drain_complete.1 hred
          (by simpa [RxParserBase.throw_away_data, RxParserBase.drain_complete, State.rank]
            using hb')
        rw [h1, h2]
        exact ⟨_, rfl, rfl, h3⟩
      · exact ⟨_, rfl, rfl, hred⟩

/-! ### The parser: fuel, slices and hook lists -/

theorem rank_le (st : State) : st.rank ≤ 3 := by
  cases st <;> decide

theorem run_fuel_add (c : Collaborator) (s : RxParserBase) (hred : s.fl16.Reduced) :
    ∀ (k fuel : Nat), 3 * s.input.length + s.state.rank ≤ fuel →
      RxParserBase.run c (fuel + k) s = RxParserBase.run c fuel s := by
  intro k
  induction k with
  | zero => intro fuel _; rfl
  | succ k ih =>
    intro fuel hb
    obtain ⟨r, h1, h2, _⟩ := run_ok c (fuel + k) s hred (by omega)
    rw [← Nat.add_assoc, h2, ← h1]
    exact ih fuel hb

/-- The result of the loop does not depend on the fuel once there is enough. -/
theorem run_fuel_eq (c : Collaborator) (s : RxParserBase) (hred : s.fl16.Reduced)
    (f1 f2 : Nat) (h1 : 3 * s.input.length + s.state.rank ≤ f1)
    (h2 : 3 * s.input.length + s.state.rank ≤ f2) :
    RxParserBase.run c f1 s = RxParserBase.run c f2 s := by
  rcases Nat.le_total f1 f2 with h | h
  · obtain ⟨k, rfl⟩ := Nat.exists_eq_add_of_le h
    exact (run_fuel_add c s hred k f1 h1).symm
  · obtain ⟨k, rfl⟩ := Nat.exists_eq_add_of_le h
    exact run_fuel_add c s hred k f2 h2

theorem process_data_ok (c : Collaborator) (s : RxParserBase) (d : List Byte)
    (hred : s.fl16.Reduced) :
    ∃ r, s.process_data c d = some r ∧ r.1.fl16.Reduced := by
  have hr := rank_le s.state
  obtain ⟨r, h1, _, h3⟩ := run_ok c (3 * d.length + 4) { s with input := d } hred
    (by show 3 * d.length + s.state.rank ≤ 3 * d.length + 4; omega)
  exact ⟨r, h1, h3⟩

/-- Every sequence of `process_data` calls returns when the accumulator is
reduced at its start. -/
theorem feed_ok (c : Collaborator) (ds : List (List Byte)) : ∀ (s : RxParserBase),
    s.fl16.Reduced → ∃ r, s.feed c ds = some r ∧ r.1.fl16.Reduced := by
  induction ds with
  | nil => intro s h; exact ⟨(s, []), rfl, h⟩
  | cons d ds ih =>
    intro s h
    obtain ⟨r, h1, h2⟩ := process_data_ok c s d h
    obtain ⟨q, h3, h4⟩ := ih r.1 h2
    exact ⟨(q.1, r.2 ++ q.2), by rw [RxParserBase.feed, h1, Option.some_bind, h3]; rfl, h4⟩

theorem with_hooks_nil (x : Option (RxParserBase × List Hook)) : with_hooks [] x = x := by
  cases x <;> rfl

theorem with_hooks_append (h1 h2 : List Hook) (x : Option (RxParserBase × List Hook)) :
    with_hooks h1 (with_hooks h2 x) = with_hooks (h1 ++ h2) x := by
  cases x with
  | none => rfl
  | some q => simp [with_hooks]

theorem resume_eq (c : Collaborator) (fuel : Nat) (s : RxParserBase) (ds : List (List Byte)) :
    s.resume c fuel ds =
      (RxParserBase.run c fuel s).bind fun r => with_hooks r.2 (RxParserBase.feed c r.1 ds) :=
  rfl

theorem feed_cons (c : Collaborator) (s : RxParserBase) (d : List Byte) (ds : List (List Byte)) :
    s.feed c (d :: ds) = RxParserBase.resume c (3 * d.length + 4) { s with input := d } ds :=
  rfl

theorem resume_with_hooks (c : Collaborator) (fuel : Nat) (s t : RxParserBase) (hs : List Hook)
    (ds : List (List Byte)) (f2 : Nat)
    (h : RxParserBase.run c fuel s = with_hooks hs (RxParserBase.run c f2 t)) :
    s.resume c fuel ds = with_hooks hs (t.resume c f2 ds) := by
  rw [resume_eq, resume_eq, h]
  cases RxParserBase.run c f2 t with
  | none => rfl
  | some q =>
    simp only [with_hooks, Option.map_some', Option.some_bind]
    cases RxParserBase.feed c q.1 ds with
    | none => rfl
    | some p => simp

theorem drop_bytes_flatten : ∀ (ds : List (List Byte)) (n : Nat), n ≤ ds.flatten.length →
    (drop_bytes n ds).flatten = ds.flatten.drop n := by
  intro ds
  induction ds with
  | nil => intro n _; simp [drop_bytes]
  | cons d ds ih =>
    intro n hn
    rw [drop_bytes]
    simp only [List.flatten_cons, List.length_append] at hn ⊢
    split
    · rename_i h
      rw [List.flatten_cons, List.drop_append_of_le_length h]
    · rename_i h
      rw [ih _ (by omega), List.drop_append_eq_append_drop]
      have : d.drop n = [] := List.drop_of_length_le (by omega)
      rw [this, List.nil_append]

theorem drop_bytes_add : ∀ (ds : List (List Byte)) (m n : Nat),
    m ≤ ds.flatten.length → ds ≠ [] →
    drop_bytes n (drop_bytes m ds) = drop_bytes (m + n) ds := by
  intro ds
  induction ds with
  | nil => intro m n _ h; exact absurd rfl h
  | cons d ds ih =>
    intro m n hm _
    simp only [List.flatten_cons, List.length_append] at hm
    by_cases h1 : m ≤ d.length
    · rw [drop_bytes, if_pos h1, drop_bytes, List.length_drop]
      by_cases h2 : m + n ≤ d.length
      · rw [if_pos (by omega), drop_bytes, if_pos h2, List.drop_drop]
      · rw [if_neg (by omega), drop_bytes, if_neg h2]
        congr 1; omega
    · rw [drop_bytes, if_neg h1, drop_bytes, if_neg (by omega)]
      by_cases hds : ds = []
      · subst hds
        simp at hm
        omega
      · rw [ih _ _ (by omega) hds]
        congr 1; omega

theorem drop_bytes_ne_nil : ∀ (ds : List (List Byte)) (n : Nat),
    n ≤ ds.flatten.length → ds ≠ [] → drop_bytes n ds ≠ [] := by
  intro ds
  induction ds with
  | nil => intro n _ h; exact absurd rfl h
  | cons d ds ih =>
    intro n hn _
    simp only [List.flatten_cons, List.length_append] at hn
    rw [drop_bytes]
    split
    · simp
    · rename_i h
      by_cases hds : ds = []
      · subst hds
        simp at hn
        omega
      · exact ih _ (by omega) hds

/-! ### The parser: draining a rejected frame -/

theorem split_short {d F need tail : List Byte} (h : d ++ F = need ++ tail)
    (hlt : d.length < need.length) :
    need.take d.length = d ∧ F = need.drop d.length ++ tail ∧ F ≠ [] := by
  have h1 := congrArg (List.take d.length) h
  have h2 := congrArg (List.drop d.length) h
  rw [List.take_left, List.take_append_of_le_length (by omega)] at h1
  rw [List.drop_left, List.drop_append_of_le_length (by omega)] at h2
  refine ⟨h1.symm, h2, ?_⟩
  intro hF
  have h3 := congrArg List.length h
  simp [hF] at h3
  omega

theorem split_long {d F need tail : List Byte} (h : d ++ F = need ++ tail)
    (hle : need.length ≤ d.length) :
    d.take need.length = need ∧ d.drop need.length ++ F = tail := by
  have h1 := congrArg (List.take need.length) h
  have h2 := congrArg (List.drop need.length) h
  rw [List.take_left, List.take_append_of_le_length hle] at h1
  rw [List.drop_left, List.drop_append_of_le_length hle] at h2
  exact ⟨h1, h2⟩

theorem resume_exit (c : Collaborator) (fuel : Nat) (s t : RxParserBase) (hs : List Hook)
    (ds : List (List Byte)) (h : RxParserBase.run c fuel s = some (t, hs)) :
    s.resume c fuel ds = with_hooks hs (t.feed c ds) := by
  rw [resume_eq, h]; rfl

theorem throw_step_done (c : Collaborator) (msg buf intron d : List Byte) (fl : Fletcher16)
    (chk : Bool) (r : Nat) (hL : c.declared_length msg < 2 ^ 16) (hr : r ≤ c.declared_length msg)
    (hd : c.declared_length msg - r ≤ d.length) :
    RxParserBase.throw_away_data c ⟨msg, fl, d, buf, intron, r, State.ThrowAwayData, chk⟩ =
      (true, ⟨msg, fl, d.drop (c.declared_length msg - r), buf, intron, c.declared_length msg,
        State.ThrowAwayData, chk⟩) := by
  have hmin : min d.length (c.declared_length msg - r) = c.declared_length msg - r :=
    Nat.min_eq_right hd
  have hsum : (r + (c.declared_length msg - r)) % 2 ^ 16 = c.declared_length msg := by
    rw [Nat.add_sub_cancel' hr, Nat.mod_eq_of_lt hL]
  simp only [RxParserBase.throw_away_data, hmin, hsum, decide_True]

theorem throw_step_more (c : Collaborator) (msg buf intron d : List Byte) (fl : Fletcher16)
    (chk : Bool) (r : Nat) (hL : c.declared_length msg < 2 ^ 16)
    (hd : d.length < c.declared_length msg - r) :
    RxParserBase.throw_away_data c ⟨msg, fl, d, buf, intron, r, State.ThrowAwayData, chk⟩ =
      (false, ⟨msg, fl, [], buf, intron, r + d.length, State.ThrowAwayData, chk⟩) := by
  have hmin : min d.length (c.declared_length msg - r) = d.length :=
    Nat.min_eq_left (by omega)
  have hsum : (r + d.length) % 2 ^ 16 = r + d.length := Nat.mod_eq_of_lt (by omega)
  have hne : ¬ (r + d.length = c.declared_length msg) := by omega
  simp only [RxParserBase.throw_away_data, hmin, hsum, hne, decide_False, List.drop_length]

/-- Draining: from state `ThrowAwayData` with `read` bytes already dropped, the
next `declared_length - read` bytes of the slices are dropped, the invalid-frame
hook is called, and the parser goes on in state `Intron` on what follows them. -/
theorem phase_throw (c : Collaborator) (msg buf intron : List Byte) (fl : Fletcher16)
    (chk : Bool) (hred : fl.Reduced) (hL : c.declared_length msg < 2 ^ 16) :
    ∀ (X : List (List Byte)) (r : Nat) (i0 : List Byte), X ≠ [] → r ≤ c.declared_length msg →
      c.declared_length msg - r ≤ X.flatten.length →
      RxParserBase.feed c ⟨msg, fl, i0, buf, intron, r, State.ThrowAwayData, chk⟩ X =
        with_hooks [Hook.process_invalid_message]
          (RxParserBase.feed c ⟨msg, fl, [], buf, intron, 0, State.Intron, chk⟩
            (drop_bytes (c.declared_length msg - r) X)) := by
  intro X
  induction X with
  | nil => intro r i0 h; exact absurd rfl h
  | cons d ds ih =>
    intro r i0 _ hr hlen
    simp only [List.flatten_cons, List.length_append] at hlen
    rw [feed_cons]
    show RxParserBase.resume c (3 * d.length + 4)
      ⟨msg, fl, d, buf, intron, r, State.ThrowAwayData, chk⟩ ds = _
    by_cases hd : c.declared_length msg - r ≤ d.length
    · have hrun : RxParserBase.run c (3 * d.length + 4)
          ⟨msg, fl, d, buf, intron, r, State.ThrowAwayData, chk⟩ =
          with_hooks [Hook.process_invalid_message]
            (RxParserBase.run c (3 * (d.drop (c.declared_length msg - r)).length + 4)
              ⟨msg, fl, d.drop (c.declared_length msg - r), buf, intron, 0,
                State.Intron, chk⟩) := by
        rw [show 3 * d.length + 4 = (3 * d.length + 3) + 1 from rfl, run_throw c _ _ rfl,
          throw_step_done c msg buf intron d fl chk r hL hr hd]
        simp only [if_true, RxParserBase.drain_complete]
        congr 1
        apply run_fuel_eq c _ hred
        · simp only [State.rank, List.length_drop]; omega
        · simp only [State.rank, List.length_drop]; omega
      rw [resume_with_hooks c _ _ _ _ ds _ hrun, drop_bytes, if_pos hd, feed_cons]
    · have hd' : d.length < c.declared_length msg - r := by omega
      have hrun : RxParserBase.run c (3 * d.length + 4)
          ⟨msg, fl, d, buf, intron, r, State.ThrowAwayData, chk⟩ =
          some (⟨msg, fl, [], buf, intron, r + d.length, State.ThrowAwayData, chk⟩, []) := by
        rw [show 3 * d.length + 4 = (3 * d.length + 3) + 1 from rfl, run_throw c _ _ rfl,
          throw_step_more c msg buf intron d fl chk r hL hd']
        simp
      have hds : ds ≠ [] := by
        intro h; subst h; simp at hlen; omega
      rw [resume_exit c _ _ _ _ ds hrun, with_hooks_nil, ih (r + d.length) [] hds (by omega)
        (by omega), drop_bytes, if_neg hd]
      congr 3
      omega

/-! ### The parser: reading the header and the body -/

theorem buffer_step_done (c : Collaborator) (msg buf intron d : List Byte) (fl : Fletcher16)
    (chk : Bool) (r k : Nat) (hred : fl.Reduced) (hH : c.header_size < 2 ^ 16)
    (hr : r + k = c.header_size) (hd : k ≤ d.length) :
    RxParserBase.wait_for_buffer c ⟨msg, fl, d, buf, intron, r, State.Header, chk⟩ =
      some (true, ⟨msg, fl.absorb (d.take k), d.drop k, buf ++ d.take k, intron,
        c.header_size, State.Header, chk⟩) := by
  have hk : c.header_size - r = k := by omega
  have hmin : min d.length (c.header_size - r) = k := by rw [hk]; exact Nat.min_eq_right hd
  have hsum : (r + k) % 2 ^ 16 = c.header_size := by rw [hr, Nat.mod_eq_of_lt hH]
  rw [wait_for_buffer_eq c _ hred]
  simp only [hmin, hsum, decide_True]

theorem buffer_step_more (c : Collaborator) (msg buf intron d : List Byte) (fl : Fletcher16)
    (chk : Bool) (r : Nat) (hred : fl.Reduced) (hH : c.header_size < 2 ^ 16)
    (hd : r + d.length < c.header_size) :
    RxParserBase.wait_for_buffer c ⟨msg, fl, d, buf, intron, r, State.Header, chk⟩ =
      some (false, ⟨msg, fl.absorb d, [], buf ++ d, intron, r + d.length,
        State.Header, chk⟩) := by
  have hmin : min d.length (c.header_size - r) = d.length := Nat.min_eq_left (by omega)
  have hsum : (r + d.length) % 2 ^ 16 = r + d.length := Nat.mod_eq_of_lt (by omega)
  have hne : ¬ (r + d.length = c.header_size) := by omega
  rw [wait_for_buffer_eq c _ hred]
  simp only [hmin, hsum, hne, decide_False, List.drop_length, List.take_length]

theorem after_header_rank (c : Collaborator) (hdr : List Byte) :
    (after_header c hdr).rank = 2 := by
  unfold after_header; split <;> rfl

/-- Reading the header: from state `Header` with `buf` already read, the bytes
`need` that complete the header are taken from the slices and streamed into the
accumulator, the start hook is called, and the parser goes on with the body on
what follows them. -/
theorem phase_header (c : Collaborator) (msg intron : List Byte) (chk : Bool)
    (hH : c.header_size < 2 ^ 16) :
    ∀ (X : List (List Byte)) (need tail buf i0 : List Byte) (r : Nat) (fl : Fletcher16),
      X ≠ [] → fl.Reduced → r + need.length = c.header_size → X.flatten = need ++ tail →
      RxParserBase.feed c ⟨msg, fl, i0, buf, intron, r, State.Header, chk⟩ X =
        with_hooks [Hook.start_packet (buf ++ need)]
          (RxParserBase.feed c ⟨buf ++ need, fl.absorb need, [], buf ++ need, intron, 0,
              after_header c (buf ++ need), chk⟩
            (drop_bytes need.length X)) := by
  intro X
  induction X with
  | nil => intro need tail buf i0 r fl h; exact absurd rfl h
  | cons d ds ih =>
    intro need tail buf i0 r fl _ hred hr hX
    rw [List.flatten_cons] at hX
    rw [feed_cons]
    show RxParserBase.resume c (3 * d.length + 4)
      ⟨msg, fl, d, buf, intron, r, State.Header, chk⟩ ds = _
    by_cases hd : need.length ≤ d.length
    · obtain ⟨htake, _⟩ := split_long hX hd
      have hrun : RxParserBase.run c (3 * d.length + 4)
          ⟨msg, fl, d, buf, intron, r, State.Header, chk⟩ =
          with_hooks [Hook.start_packet (buf ++ need)]
            (RxParserBase.run c (3 * (d.drop need.length).length + 4)
              ⟨buf ++ need, fl.absorb need, d.drop need.length, buf ++ need, intron, 0,
                after_header c (buf ++ need), chk⟩) := by
        rw [show 3 * d.length + 4 = (3 * d.length + 3) + 1 from rfl, run_header c _ _ rfl,
          buffer_step_done c msg buf intron d fl chk r need.length hred hH hr hd, htake]
        simp only [Option.some_bind, if_true, RxParserBase.header_complete]
        congr 1
        apply run_fuel_eq c _ (absorb_reduced _ hred _)
        · show 3 * (d.drop need.length).length + (after_header c (buf ++ need)).rank ≤ _
          rw [after_header_rank, List.length_drop]; omega
        · show 3 * (d.drop need.length).length + (after_header c (buf ++ need)).rank ≤ _
          rw [after_header_rank]; omega
      rw [resume_with_hooks c _ _ _ _ ds _ hrun, drop_bytes, if_pos hd, feed_cons]
    · have hd' : d.length < need.length := by omega
      obtain ⟨htake, hF, hds⟩ := split_short hX hd'
      have hrun : RxParserBase.run c (3 * d.length + 4)
          ⟨msg, fl, d, buf, intron, r, State.Header, chk⟩ =
          some (⟨msg, fl.absorb d, [], buf ++ d, intron, r + d.length, State.Header, chk⟩,
            []) := by
        rw [show 3 * d.length + 4 = (3 * d.length + 3) + 1 from rfl, run_header c _ _ rfl,
          buffer_step_more c msg buf intron d fl chk r hred hH (by omega)]
        simp
      have hds' : ds ≠ [] := by
        intro h; subst h; exact hds rfl
      have hneed : d ++ need.drop d.length = need := by
        have h := List.take_append_drop d.length need
        rwa [htake] at h
      rw [resume_exit c _ _ _ _ ds hrun, with_hooks_nil,
        ih (need.drop d.length) tail (buf ++ d) [] (r + d.length) (fl.absorb d) hds'
          (absorb_reduced _ hred _) (by rw [List.length_drop]; omega) hF,
        ← absorb_append, List.append_assoc, hneed, drop_bytes, if_neg hd, List.length_drop]

theorem match_intron_more (intron : List Byte) (hI : intron.length < 2 ^ 16) :
    ∀ (d pre post : List Byte) (r : Nat), intron = pre ++ d ++ post → post ≠ [] →
      pre.length = r → match_intron intron r d = (false, r + d.length, []) := by
  intro d
  induction d with
  | nil => intro pre post r _ _ _; rfl
  | cons b d ih =>
    intro pre post r hi hpost hr
    have hpl : 0 < post.length := List.length_pos.mpr hpost
    have hlen : intron.length = r + (d.length + 1) + post.length := by
      rw [hi]; simp [hr]; omega
    have hget : intron[r]? = some b := by
      rw [hi, List.append_assoc, ← hr, List.getElem?_append_right (Nat.le_refl _)]; simp
    rw [match_intron]
    simp only [hget, if_true]
    rw [Nat.mod_eq_of_lt (by omega), if_neg (by omega),
      ih (pre ++ [b]) post (r + 1) (by rw [hi]; simp) hpost (by simp [hr])]
    simp only [List.length_cons]
    congr 2
    omega

theorem match_intron_done (intron : List Byte) (hI : intron.length < 2 ^ 16) :
    ∀ (need pre rest : List Byte) (r : Nat), intron = pre ++ need → need ≠ [] →
      pre.length = r → match_intron intron r (need ++ rest) = (true, intron.length, rest) := by
  intro need
  induction need with
  | nil => intro pre rest r _ h; exact absurd rfl h
  | cons b need ih =>
    intro pre rest r hi _ hr
    have hlen : intron.length = r + (need.length + 1) := by
      rw [hi]; simp [hr]
    have hget : intron[r]? = some b := by
      rw [hi, ← hr, List.getElem?_append_right (Nat.le_refl _)]; simp
    rw [List.cons_append, match_intron]
    simp only [hget, if_true]
    rw [Nat.mod_eq_of_lt (by omega)]
    by_cases hn : need = []
    · subst hn
      simp only [List.length_nil] at hlen
      rw [if_pos (by omega), List.nil_append]
      congr 2
      omega
    · have hpos : 0 < need.length := List.length_pos.mpr hn
      rw [if_neg (by omega)]
      exact ih (pre ++ [b]) rest (r + 1) (by rw [hi]; simp) hn (by simp [hr])

/-- Matching the intron: from state `Intron` with `pre` already matched, the
bytes `need` that complete the pattern are taken from the slices, the reset-frame
hook is called, and the parser goes on in state `Header`, scratch empty and
accumulator zeroed, on what follows them. -/
theorem phase_intron (c : Collaborator) (msg buf intron : List Byte) (fl : Fletcher16)
    (chk : Bool) (hI : intron.length < 2 ^ 16) :
    ∀ (X : List (List Byte)) (need pre tail i0 : List Byte) (r : Nat),
      X ≠ [] → intron = pre ++ need → need ≠ [] → pre.length = r →
      X.flatten = need ++ tail →
      RxParserBase.feed c ⟨msg, fl, i0, buf, intron, r, State.Intron, chk⟩ X =
        with_hooks [Hook.reset_packet]
          (RxParserBase.feed c ⟨msg, fl.reset, [], [], intron, 0, State.Header, chk⟩
            (drop_bytes need.length X)) := by
  intro X
  induction X with
  | nil => intro need pre tail i0 r h; exact absurd rfl h
  | cons d ds ih =>
    intro need pre tail i0 r _ hi hne hr hX
    rw [List.flatten_cons] at hX
    rw [feed_cons]
    show RxParserBase.resume c (3 * d.length + 4)
      ⟨msg, fl, d, buf, intron, r, State.Intron, chk⟩ ds = _
    have hnpos : 0 < need.length := List.length_pos.mpr hne
    by_cases hd : need.length ≤ d.length
    · obtain ⟨htake, _⟩ := split_long hX hd
      have hdsplit : d = need ++ d.drop need.length := by
        conv_lhs => rw [← List.take_append_drop need.length d, htake]
      have hm := match_intron_done intron hI need pre (d.drop need.length) r hi hne hr
      rw [← hdsplit] at hm
      have hrun : RxParserBase.run c (3 * d.length + 4)
          ⟨msg, fl, d, buf, intron, r, State.Intron, chk⟩ =
          with_hooks [Hook.reset_packet]
            (RxParserBase.run c (3 * (d.drop need.length).length + 4)
              ⟨msg, fl.reset, d.drop need.length, [], intron, 0, State.Header, chk⟩) := by
        rw [show 3 * d.length + 4 = (3 * d.length + 3) + 1 from rfl, run_intron c _ _ rfl]
        simp only [RxParserBase.wait_for_intron, hm, if_true, RxParserBase.intron_found]
        congr 1
        apply run_fuel_eq c _ (reset_reduced fl)
        · simp only [State.rank, List.length_drop]; omega
        · simp only [State.rank, List.length_drop]; omega
      rw [resume_with_hooks c _ _ _ _ ds _ hrun, drop_bytes, if_pos hd, feed_cons]
    · have hd' : d.length < need.length := by omega
      obtain ⟨htake, hF, hds⟩ := split_short hX hd'
      have hneed : d ++ need.drop d.length = need := by
        have h := List.take_append_drop d.length need
        rwa [htake] at h
      have hdne : need.drop d.length ≠ [] := by
        intro h
        have := congrArg List.length h
        simp at this
        omega
      have hm := match_intron_more intron hI d pre (need.drop d.length) r
        (by rw [List.append_assoc, hneed]; exact hi) hdne hr
      have hrun : RxParserBase.run c (3 * d.length + 4)
          ⟨msg, fl, d, buf, intron, r, State.Intron, chk⟩ =
          some (⟨msg, fl, [], buf, intron, r + d.length, State.Intron, chk⟩, []) := by
        rw [show 3 * d.length + 4 = (3 * d.length + 3) + 1 from rfl, run_intron c _ _ rfl]
        simp [RxParserBase.wait_for_intron, hm]
      have hds' : ds ≠ [] := by
        intro h; subst h; exact hds rfl
      rw [resume_exit c _ _ _ _ ds hrun, with_hooks_nil,
        ih (need.drop d.length) (pre ++ d) tail [] (r + d.length) hds'
          (by rw [List.append_assoc, hneed]; exact hi) hdne (by simp [hr]) hF,
        drop_bytes, if_neg hd, List.length_drop]

/-! ### The parser: slices that end before the current part of a frame does -/

theorem quiet_throw (c : Collaborator) (msg buf intron : List Byte) (fl : Fletcher16)
    (chk : Bool) (hL : c.declared_length msg < 2 ^ 16) :
    ∀ (X : List (List Byte)) (r : Nat) (i0 : List Byte),
      r + X.flatten.length < c.declared_length msg →
      ∃ s', RxParserBase.feed c ⟨msg, fl, i0, buf, intron, r, State.ThrowAwayData, chk⟩ X
          = some (s', []) ∧ s'.checksum_valid = chk ∧ s'.state = State.ThrowAwayData ∧
        s'.read = r + X.flatten.length ∧ s'.fl16 = fl := by
  intro X
  induction X with
  | nil => intro r i0 _; exact ⟨_, rfl, rfl, rfl, rfl, rfl⟩
  | cons d ds ih =>
    intro r i0 hlen
    simp only [List.flatten_cons, List.length_append] at hlen
    have hrun : RxParserBase.run c (3 * d.length + 4)
        ⟨msg, fl, d, buf, intron, r, State.ThrowAwayData, chk⟩ =
        some (⟨msg, fl, [], buf, intron, r + d.length, State.ThrowAwayData, chk⟩, []) := by
      rw [show 3 * d.length + 4 = (3 * d.length + 3) + 1 from rfl, run_throw c _ _ rfl,
        throw_step_more c msg buf intron d fl chk r hL (by omega)]
      simp
    obtain ⟨s', h1, h2, h3, h4, h5⟩ := ih (r + d.length) [] (by omega)
    refine ⟨s', ?_, h2, h3, ?_, h5⟩
    · rw [feed_cons]
      show RxParserBase.resume c (3 * d.length + 4)
        ⟨msg, fl, d, buf, intron, r, State.ThrowAwayData, chk⟩ ds = _
      rw [resume_exit c _ _ _ _ ds hrun, with_hooks_nil, h1]
    · rw [h4]; simp only [List.flatten_cons, List.length_append]; omega

/-! ### The parser: a whole frame -/

theorem after_header_reject (c : Collaborator) (hdr : List Byte)
    (h : (c.start_packet hdr && c.validate_length_with_type hdr) = false) :
    after_header c hdr = State.ThrowAwayData := by
  unfold after_header; rw [if_neg (by simp [h])]

theorem chunks_ne_nil {X : List (List Byte)} {a b : List Byte} (h : X.flatten = a ++ b)
    (ha : a ≠ []) : X ≠ [] := by
  intro hX
  subst hX
  have := congrArg List.length h
  have hp := List.length_pos.mpr ha
  simp at this
  omega

/-- From the intron search to the completed header: the intron and the header
are taken from the slices, the reset-frame hook and the start hook are called,
and the parser goes on with the body on what follows. -/
theorem frame_head (c : Collaborator) (msg buf intron i0 : List Byte) (fl : Fletcher16)
    (chk : Bool) (hdr tail : List Byte) (X : List (List Byte))
    (hintron : intron ≠ []) (hI : intron.length < 2 ^ 16) (hH : c.header_size < 2 ^ 16)
    (hhdr : hdr.length = c.header_size) (hX : X.flatten = intron ++ hdr ++ tail) :
    RxParserBase.feed c ⟨msg, fl, i0, buf, intron, 0, State.Intron, chk⟩ X =
        with_hooks [Hook.reset_packet, Hook.start_packet hdr]
          (RxParserBase.feed c ⟨hdr, Fletcher16.create.absorb hdr, [], hdr, intron, 0,
              after_header c hdr, chk⟩ (drop_bytes (intron.length + hdr.length) X)) ∧
      drop_bytes (intron.length + hdr.length) X ≠ [] ∧
      (drop_bytes (intron.length + hdr.length) X).flatten = tail := by
  have hX' : X.flatten = intron ++ (hdr ++ tail) := by rw [hX, List.append_assoc]
  have hne : X ≠ [] := chunks_ne_nil hX' hintron
  have hlen : X.flatten.length = intron.length + hdr.length + tail.length := by
    rw [hX, List.length_append, List.length_append]
  have h1 := phase_intron c msg buf intron fl chk hI X intron [] (hdr ++ tail) i0 0 hne
    rfl hintron rfl hX'
  have hne1 := drop_bytes_ne_nil X intron.length (by omega) hne
  have hfl1 : (drop_bytes intron.length X).flatten = hdr ++ tail := by
    rw [drop_bytes_flatten X _ (by omega), hX', List.drop_left]
  have h2 := phase_header c msg intron chk hH (drop_bytes intron.length X) hdr tail [] []
    0 fl.reset hne1 (reset_reduced fl) (by omega) hfl1
  rw [drop_bytes_add X _ _ (by omega) hne] at h2
  refine ⟨?_, drop_bytes_ne_nil X _ (by omega) hne, ?_⟩
  · rw [h1, h2, with_hooks_append]; rfl
  · rw [drop_bytes_flatten X _ (by omega), hX, List.append_assoc, ← List.length_append,
      ← List.append_assoc, List.drop_left]

/-- After `reset` and after `set_intron` the parser is at a frame boundary: in
state `Intron` with no byte of the intron matched. -/
theorem reset_frame_boundary (s : RxParserBase) (new_intron : List Byte) :
    (s.reset.state = State.Intron ∧ s.reset.read = 0) ∧
      ((s.set_intron new_intron).state = State.Intron ∧ (s.set_intron new_intron).read = 0 ∧
        (s.set_intron new_intron).intron = new_intron) :=
  ⟨⟨rfl, rfl⟩, rfl, rfl, rfl⟩

/-- C10. Rejected-frame draining: after the intron and a header that declares
body length `L` and is rejected, for every splitting of the stream into
`process_data` calls, `reset_packet`, the start hook and then
`process_invalid_message` are the only hooks called for the intron, the header
and the `L` bytes after it, the accumulator holds the checksum of the header
alone, and the parser handles the bytes after those `L` bytes as a parser in
state `Intron` does (cursor right after them); while fewer than `L` of the
bytes have arrived the parser is in state `ThrowAwayData` and no further hook
is called. -/
theorem rejected_frame_draining (c : Collaborator) (s : RxParserBase)
    (hdr drained later : List Byte) (chunks : List (List Byte))
    (hstate : s.state = State.Intron) (hread : s.read = 0)
    (hintron : s.intron ≠ []) (hI : s.intron.length < 2 ^ 16)
    (hH : c.header_size < 2 ^ 16) (hhdr : hdr.length = c.header_size)
    (hL : c.declared_length hdr < 2 ^ 16)
    (hrej : (c.start_packet hdr && c.validate_length_with_type hdr) = false)
    (hdrained : drained.length = c.declared_length hdr)
    (hsplit : chunks.flatten = s.intron ++ hdr ++ drained ++ later) :
    ∃ fl : Fletcher16, Fletcher16.create.update hdr = some fl ∧
      s.feed c chunks =
        with_hooks [Hook.reset_packet, Hook.start_packet hdr, Hook.process_invalid_message]
          (RxParserBase.feed c ⟨hdr, fl, [], hdr, s.intron, 0, State.Intron, s.checksum_valid⟩
            (drop_bytes (s.intron.length + hdr.length + drained.length) chunks)) ∧
      (drop_bytes (s.intron.length + hdr.length + drained.length) chunks).flatten = later ∧
      (s.feed c chunks).isSome = true ∧
      ∀ (part : List Byte) (parts : List (List Byte)),
        part.length < c.declared_length hdr → parts.flatten = s.intron ++ hdr ++ part →
        ∃ s', s.feed c parts = some (s', [Hook.reset_packet, Hook.start_packet hdr]) ∧
          s'.state = State.ThrowAwayData ∧ s'.read = part.length ∧ s'.fl16 = fl := by
  obtain ⟨msg0, fl0, i0, buf0, intron, r0, st0, chk0⟩ := s
  simp only at hstate hread hintron hI hsplit
  subst hstate hread
  dsimp only
  have hlen : chunks.flatten.length =
      intron.length + hdr.length + drained.length + later.length := by
    rw [hsplit]; simp only [List.length_append]
  have hmain : RxParserBase.feed c ⟨msg0, fl0, i0, buf0, intron, 0, State.Intron, chk0⟩ chunks =
      with_hooks [Hook.reset_packet, Hook.start_packet hdr, Hook.process_invalid_message]
        (RxParserBase.feed c ⟨hdr, Fletcher16.create.absorb hdr, [], hdr, intron, 0,
            State.Intron, chk0⟩
          (drop_bytes (intron.length + hdr.length + drained.length) chunks)) := by
    obtain ⟨h1, hne, hfl⟩ := frame_head c msg0 buf0 intron i0 fl0 chk0 hdr (drained ++ later)
      chunks hintron hI hH hhdr (by rw [hsplit, List.append_assoc])
    have h2 := phase_throw c hdr hdr intron (Fletcher16.create.absorb hdr) chk0
      (absorb_reduced _ create_reduced _) hL _ 0 [] hne (Nat.zero_le _)
      (by rw [hfl, List.length_append]; omega)
    rw [after_header_reject c hdr hrej] at h1
    rw [h1, h2, with_hooks_append, Nat.sub_zero, ← hdrained,
      drop_bytes_add chunks _ _ (by omega)
        (chunks_ne_nil (by rw [hsplit, List.append_assoc, List.append_assoc]) hintron)]
    rfl
  refine ⟨Fletcher16.create.absorb hdr, update_eq_absorb _ _ create_reduced, hmain, ?_, ?_, ?_⟩
  · rw [drop_bytes_flatten chunks _ (by omega), hsplit]
    simp only [← List.length_append]
    rw [List.drop_left]
  · obtain ⟨r, hr, _⟩ := feed_ok c
      (drop_bytes (intron.length + hdr.length + drained.length) chunks)
      ⟨hdr, Fletcher16.create.absorb hdr, [], hdr, intron, 0, State.Intron, chk0⟩
      (absorb_reduced _ create_reduced _)
    rw [hmain, hr]; rfl
  · intro part parts hpart hparts
    obtain ⟨h1, hne, hfl⟩ := frame_head c msg0 buf0 intron i0 fl0 chk0 hdr part parts hintron
      hI hH hhdr hparts
    obtain ⟨s', h2, _, h4, h5, h6⟩ := quiet_throw c hdr hdr intron
      (Fletcher16.create.absorb hdr) chk0 hL
      (drop_bytes (intron.length + hdr.length) parts) 0 [] (by rw [hfl]; omega)
    rw [after_header_reject c hdr hrej] at h1
    refine ⟨s', ?_, h4, ?_, h6⟩
    · rw [h1, h2]; rfl
    · rw [h5, hfl]; omega

/-- Witness of C10: the rejected header `01 03 C0 BD ED F4` (odd type), its three
body bytes and two more bytes, in four slices. -/
theorem rejected_frame_draining_witness :
    ∃ fl : Fletcher16, Fletcher16.create.update [1, 3, 192, 189, 237, 244] = some fl ∧
      demo_rx.feed demo_collaborator [[0x55, 0xAA, 1], [3, 192, 189, 237, 244, 7], [8],
          [9, 0x55, 0xAA]] =
        with_hooks [Hook.reset_packet, Hook.start_packet [1, 3, 192, 189, 237, 244],
            Hook.process_invalid_message]
          (RxParserBase.feed demo_collaborator
            ⟨[1, 3, 192, 189, 237, 244], fl, [], [1, 3, 192, 189, 237, 244], demo_rx.intron,
              0, State.Intron, demo_rx.checksum_valid⟩
            (drop_bytes (demo_rx.intron.length
                + ([1, 3, 192, 189, 237, 244] : List Byte).length
                + ([7, 8, 9] : List Byte).length)
              [[0x55, 0xAA, 1], [3, 192, 189, 237, 244, 7], [8], [9, 0x55, 0xAA]])) ∧
      (drop_bytes (demo_rx.intron.length
            + ([1, 3, 192, 189, 237, 244] : List Byte).length
            + ([7, 8, 9] : List Byte).length)
          [[0x55, 0xAA, 1], [3, 192, 189, 237, 244, 7], [8], [9, 0x55, 0xAA]]).flatten
        = [0x55, 0xAA] ∧
      (demo_rx.feed demo_collaborator [[0x55, 0xAA, 1], [3, 192, 189, 237, 244, 7], [8],
          [9, 0x55, 0xAA]]).isSome = true ∧
      ∀ (part : List Byte) (parts : List (List Byte)),
        part.length < demo_collaborator.declared_length [1, 3, 192, 189, 237, 244] →
        parts.flatten = demo_rx.intron ++ [1, 3, 192, 189, 237, 244] ++ part →
        ∃ s', demo_rx.feed demo_collaborator parts
            = some (s', [Hook.reset_packet, Hook.start_packet [1, 3, 192, 189, 237, 244]]) ∧
          s'.state = State.ThrowAwayData ∧ s'.read = part.length ∧ s'.fl16 = fl :=
  rejected_frame_draining demo_collaborator demo_rx [1, 3, 192, 189, 237, 244] [7, 8, 9]
    [0x55, 0xAA] [[0x55, 0xAA, 1], [3, 192, 189, 237, 244, 7], [8], [9, 0x55, 0xAA]]
    (by decide) (by decide) (by decide) (by decide) (by decide) (by decide) (by decide)
    (by decide) (by decide) (by decide)

/-! ### The pending byte and the reduced sums -/

/-- C11. Pending-byte combination: from a state with `c0 < 65535`, `c1 < 65535`
and pending byte `p`, `update` on a non-empty slice `d0 :: t` first forms the
little-endian word `p + 256*d0` (pending byte low) and adds it to both sums,
going on at offset 1, and the state it returns is the state `update` returns on
the slice `p :: d0 :: t` from the same state with the pending byte cleared. -/
theorem pending_byte_combination (s : Fletcher16) (p d0 : Byte) (t : List Byte)
    (hs : s.Reduced) (hp : s.overflow_byte = some p) :
    pendingStep add_u32 (d0 :: t) s =
        some (⟨(s.c0 + (p.val + 256 * d0.val)) % 65535,
          (s.c1 + (s.c0 + (p.val + 256 * d0.val)) % 65535) % 65535, none⟩, 1) ∧
      s.update (d0 :: t) =
        ({ s with overflow_byte := none } : Fletcher16).update (p :: d0 :: t) ∧
      (s.update (d0 :: t)).isSome = true := by
  obtain ⟨h0, h1⟩ := hs
  simp only [FLETCHER_16_MODULO] at h0 h1
  have hb := byte_word_le p d0
  refine ⟨?_, ?_, ?_⟩
  · have a0 : (s.c0 + (p.val + 256 * d0.val)) % 2 ^ 32 = s.c0 + (p.val + 256 * d0.val) :=
      Nat.mod_eq_of_lt (by omega)
    have a1 : (s.c1 + (s.c0 + (p.val + 256 * d0.val)) % 65535) % 2 ^ 32
        = s.c1 + (s.c0 + (p.val + 256 * d0.val)) % 65535 := Nat.mod_eq_of_lt (by omega)
    simp only [pendingStep, hp, List.getElem?_cons_zero, word_eq, add_u32,
      Option.bind_eq_bind, Option.some_bind, a0, a1, FLETCHER_16_MODULO]
    rfl
  · rw [update_eq_absorb s _ ⟨h0, h1⟩,
      update_eq_absorb ({ s with overflow_byte := none } : Fletcher16) _ ⟨h0, h1⟩,
      absorb_cons _ p]
    congr 2
    obtain ⟨c0, c1, o⟩ := s
    simp only at hp
    subst hp
    rfl
  · rw [update_eq_absorb s _ ⟨h0, h1⟩]; rfl

/-- Witness of C11 at the state `(10, 20, pending 3)` and the slice `[4, 5, 6]`. -/
theorem pending_byte_combination_witness :
    pendingStep add_u32 [4, 5, 6] ⟨10, 20, some 3⟩ =
        some (⟨(10 + ((3 : Byte).val + 256 * (4 : Byte).val)) % 65535,
          (20 + (10 + ((3 : Byte).val + 256 * (4 : Byte).val)) % 65535) % 65535, none⟩, 1) ∧
      (⟨10, 20, some 3⟩ : Fletcher16).update [4, 5, 6] =
        ({ (⟨10, 20, some 3⟩ : Fletcher16) with overflow_byte := none } : Fletcher16).update
          [3, 4, 5, 6] ∧
      ((⟨10, 20, some 3⟩ : Fletcher16).update [4, 5, 6]).isSome = true :=
  pending_byte_combination ⟨10, 20, some 3⟩ 3 4 [5, 6] (by decide) rfl

theorem absorb_odd (l : List Byte) (b : Byte) (s : Fletcher16) (hs : s.overflow_byte = none)
    (hl : l.length % 2 = 0) :
    s.absorb (l ++ [b]) = { s.absorb l with overflow_byte := some b } := by
  have hn : (s.absorb l).overflow_byte = none := by
    cases h : (s.absorb l).overflow_byte with
    | none => rfl
    | some q =>
      have := (absorb_pending l s hs).mp (by rw [h]; rfl)
      omega
  rw [absorb_append, absorb_cons, absorb_nil]
  simp [Fletcher16.push, hn]

/-- C12. Pending-byte parity invariant: after any sequence of `update` calls on
a freshly constructed or reset accumulator, with `n` the number of bytes
supplied, a pending byte is held exactly when `n` is odd; it is then the last
byte supplied, and `c0` and `c1` are those of the accumulator fed all bytes
but that one, which holds no pending byte. -/
theorem pending_parity (t : Fletcher16) (chunks : List (List Byte)) :
    t.reset = Fletcher16.create ∧
    ∃ s, t.reset.updateAll chunks = some s ∧
      (s.overflow_byte.isSome = true ↔ chunks.flatten.length % 2 = 1) ∧
      (chunks.flatten.length % 2 = 1 →
        s.overflow_byte = chunks.flatten.getLast? ∧
        ∃ s0, Fletcher16.create.update chunks.flatten.dropLast = some s0 ∧
          s0.overflow_byte = none ∧ s.c0 = s0.c0 ∧ s.c1 = s0.c1) := by
  refine ⟨rfl, Fletcher16.create.absorb chunks.flatten,
    updateAll_eq_absorb chunks _ create_reduced, absorb_pending _ _ rfl, ?_⟩
  intro hodd
  have hne : chunks.flatten ≠ [] := by
    intro h; rw [h] at hodd; simp at hodd
  have hsplit := List.dropLast_append_getLast hne
  have hlen : chunks.flatten.dropLast.length % 2 = 0 := by
    rw [List.length_dropLast]
    have := List.length_pos.mpr hne
    omega
  have hab := absorb_odd chunks.flatten.dropLast (chunks.flatten.getLast hne)
    Fletcher16.create rfl hlen
  rw [hsplit] at hab
  refine ⟨?_, Fletcher16.create.absorb chunks.flatten.dropLast,
    update_eq_absorb _ _ create_reduced, ?_, ?_, ?_⟩
  · rw [hab, List.getLast?_eq_getLast _ hne]
  · cases h : (Fletcher16.create.absorb chunks.flatten.dropLast).overflow_byte with
    | none => rfl
    | some q =>
      have := (absorb_pending chunks.flatten.dropLast Fletcher16.create rfl).mp
        (by rw [h]; rfl)
      omega
  · rw [hab]
  · rw [hab]

/-- Witness of C12 at the slices `[1,2]`, `[]`, `[3]` (three bytes). -/
theorem pending_parity_witness :
    (⟨7, 8, some 9⟩ : Fletcher16).reset = Fletcher16.create ∧
    ∃ s, (⟨7, 8, some 9⟩ : Fletcher16).reset.updateAll [[1, 2], [], [3]] = some s ∧
      (s.overflow_byte.isSome = true ↔ ([[1, 2], [], [3]] : List (List Byte)).flatten.length % 2 = 1) ∧
      (([[1, 2], [], [3]] : List (List Byte)).flatten.length % 2 = 1 →
        s.overflow_byte = ([[1, 2], [], [3]] : List (List Byte)).flatten.getLast? ∧
        ∃ s0, Fletcher16.create.update ([[1, 2], [], [3]] : List (List Byte)).flatten.dropLast
            = some s0 ∧
          s0.overflow_byte = none ∧ s.c0 = s0.c0 ∧ s.c1 = s0.c1) :=
  pending_parity ⟨7, 8, some 9⟩ [[1, 2], [], [3]]

theorem reachable_reduced (s : Fletcher16) (h : s.Reachable) : s.Reduced := by
  induction h with
  | create => exact create_reduced
  | update s s1 d _ hu ih =>
    rw [update_eq_absorb s d ih] at hu
    rw [← Option.some.inj hu]
    exact absorb_reduced s ih d
  | reset s _ _ => exact reset_reduced s
  | get s _ ih =>
    have : s.get_call.2 = s := by
      unfold Fletcher16.get_call
      cases s.overflow_byte <;> rfl
    rw [this]; exact ih

/-- C13. Reduced-sums invariant: `c0 < 65535` and `c1 < 65535` hold in the
freshly constructed state and in the state after `reset()`; `update` returns
from a state in which they hold, for every slice, with a state in which they
hold; so they hold in every state reachable through the public operations. -/
theorem reduced_sums_invariant (s : Fletcher16) (d : List Byte) :
    Fletcher16.create.Reduced ∧ s.reset.Reduced ∧
      (s.Reduced → ∃ s1, s.update d = some s1 ∧ s1.Reduced) ∧
      (s.Reachable → s.Reduced) :=
  ⟨create_reduced, reset_reduced s,
    fun h => ⟨s.absorb d, update_eq_absorb s d h, absorb_reduced s h d⟩,
    reachable_reduced s⟩

/-- Witness of C13 at the state `(65534, 65534, pending 255)`, reached or not,
and the slice `[255, 255, 255]`. -/
theorem reduced_sums_invariant_witness :
    (∃ s1, (⟨65534, 65534, some 255⟩ : Fletcher16).update [255, 255, 255] = some s1 ∧
        s1.Reduced) ∧
      Fletcher16.create.reset.Reduced :=
  ⟨(reduced_sums_invariant ⟨65534, 65534, some 255⟩ [255, 255, 255]).2.2.1 (by decide),
   (reduced_sums_invariant Fletcher16.create.reset [255, 255, 255]).2.2.2
     (Fletcher16.Reachable.reset _ Fletcher16.Reachable.create)⟩

/-! ### What the checksum detects and what it misses -/

theorem refTotal0_nil : refTotal0 [] = 0 := by
  simp [refTotal0, refCount]

theorem refTotal0_single (a : Byte) : refTotal0 [a] = a.val := by
  simp [refTotal0, refCount, refWord, List.range_succ]

theorem refTotal0_cons2 (a b : Byte) (r : List Byte) :
    refTotal0 (a :: b :: r) = (a.val + 256 * b.val) + refTotal0 r := by
  have h1 := full_eq_ref (a :: b :: r) 0 0
  have h2 := full_eq_ref r (0 + (a.val + 256 * b.val)) (0 + (0 + (a.val + 256 * b.val)))
  rw [full, h2] at h1
  have := congrArg Prod.fst h1
  simp only at this
  omega

/-- The weight of the byte at offset `i` in its little-endian word. -/
theorem refTotal0_set (l : List Byte) : ∀ (i : Nat) (x y : Byte), l[i]? = some x →
    refTotal0 (l.set i y) + x.val * (if i % 2 = 0 then 1 else 256)
      = refTotal0 l + y.val * (if i % 2 = 0 then 1 else 256) := by
  induction l using pair_induction with
  | h0 => intro i x y h; simp at h
  | h1 a =>
    intro i x y h
    cases i with
    | zero =>
      simp only [List.getElem?_cons_zero, Option.some.injEq] at h
      subst h
      simp only [List.set_cons_zero, refTotal0_single]
      simp
      omega
    | succ k => simp at h
  | h2 a b r ih =>
    intro i x y h
    match i, h with
    | 0, h =>
      simp only [List.getElem?_cons_zero, Option.some.injEq] at h
      subst h
      simp only [List.set_cons_zero, refTotal0_cons2]
      simp
      omega
    | 1, h =>
      simp only [List.getElem?_cons_succ, List.getElem?_cons_zero, Option.some.injEq] at h
      subst h
      simp only [List.set_cons_succ, List.set_cons_zero, refTotal0_cons2]
      simp
      omega
    | k + 2, h =>
      simp only [List.getElem?_cons_succ] at h
      have e := ih k x y h
      have hk : (k + 2) % 2 = k % 2 := by omega
      simp only [List.set_cons_succ, refTotal0_cons2, hk]
      omega

theorem reference_low (d : List Byte) : fletcher16_reference d % 65536 = refTotal0 d % 65535 := by
  unfold fletcher16_reference
  have h := Nat.mod_lt (refTotal0 d) (show 0 < 65535 by decide)
  omega

/-- C14. Single-byte corruption is always detected: for a buffer `d`, an index
`i < length(d)` and a byte `b` different from `d[i]`, `fletcher16` returns on
`d` with position `i` replaced by `b` a value whose low 16 bits differ from
those of the value it returns on `d`; the unpaired last byte of an odd-length
buffer is no exception. -/
theorem single_byte_corruption_detected (d : List Byte) (i : Nat) (b : Byte)
    (hi : i < d.length) (hb : b ≠ d[i]) :
    ∃ v w, fletcher16 d = some v ∧ fletcher16 (d.set i b) = some w ∧
      w % 65536 ≠ v % 65536 ∧ w ≠ v := by
  refine ⟨_, _, fletcher16_reference_equivalence d,
    fletcher16_reference_equivalence (d.set i b), ?_, ?_⟩
  · rw [reference_low, reference_low]
    intro heq
    have hset := refTotal0_set d i d[i] b (List.getElem?_eq_getElem hi)
    have hx := (d[i]).isLt
    have hy := b.isLt
    have hne : b.val ≠ (d[i]).val := fun h => hb (Fin.ext h)
    split at hset <;> omega
  · intro heq
    have hlow : fletcher16_reference (d.set i b) % 65536 = fletcher16_reference d % 65536 := by
      rw [heq]
    rw [reference_low, reference_low] at hlow
    have hset := refTotal0_set d i d[i] b (List.getElem?_eq_getElem hi)
    have hx := (d[i]).isLt
    have hy := b.isLt
    have hne : b.val ≠ (d[i]).val := fun h => hb (Fin.ext h)
    split at hset <;> omega

/-- Witness of C14 at the unpaired last byte of `[1, 2, 3]`, replaced by `4`. -/
theorem single_byte_corruption_detected_witness :
    ∃ v w, fletcher16 [1, 2, 3] = some v ∧ fletcher16 (([1, 2, 3] : List Byte).set 2 4) = some w ∧
      w % 65536 ≠ v % 65536 ∧ w ≠ v :=
  single_byte_corruption_detected [1, 2, 3] 2 4 (by decide) (by decide)

theorem push_ff_pair (s : Fletcher16) (hs : s.overflow_byte = none) :
    (s.push 255).push 255 = (s.push 0).push 0 := by
  simp only [Fletcher16.push, hs, FLETCHER_16_MODULO, Fletcher16.mk.injEq, and_true]
  have e : ((255 : Byte).val + 256 * (255 : Byte).val) = 65535 := by decide
  have z : ((0 : Byte).val + 256 * (0 : Byte).val) = 0 := by decide
  rw [e, z]
  omega

theorem push_pair_none (s : Fletcher16) (a b : Byte) (hs : s.overflow_byte = none) :
    ((s.push a).push b).overflow_byte = none := by
  simp [Fletcher16.push, hs]

theorem absorb_ff_pair (l : List Byte) : ∀ (j : Nat) (s : Fletcher16),
    s.overflow_byte = none → j % 2 = 0 → l[j]? = some 255 → l[j + 1]? = some 255 →
    s.absorb ((l.set j 0).set (j + 1) 0) = s.absorb l := by
  induction l using pair_induction with
  | h0 => intro j s _ _ h; simp at h
  | h1 a =>
    intro j s _ _ _ h
    simp at h
  | h2 a b r ih =>
    intro j s hs
    match j with
    | 0 =>
      intro _ e0 e1
      simp only [List.getElem?_cons_zero, List.getElem?_cons_succ, Option.some.injEq] at e0 e1
      subst e0 e1
      simp only [List.set_cons_zero, List.set_cons_succ, absorb_cons]
      rw [push_ff_pair s hs]
    | 1 => intro hj; omega
    | k + 2 =>
      intro hj e0 e1
      simp only [List.getElem?_cons_succ] at e0 e1
      simp only [List.set_cons_succ, absorb_cons]
      exact ih k _ (push_pair_none s a b hs) (by omega) e0 e1

/-- C15. All-ones word blind spot: when the bytes at an even offset `j` and at
`j + 1` of a buffer are both `0xFF`, the buffer with both replaced by `0x00` is
a different buffer of the same length on which `fletcher16` returns the same
value; `fletcher16([0xFF,0xFF])` and `fletcher16([0x00,0x00])` are both 0. -/
theorem all_ones_word_blind_spot (d : List Byte) (j : Nat) (hj : j % 2 = 0)
    (hlen : j + 1 < d.length) (h0 : d[j] = 0xFF) (h1 : d[j + 1] = 0xFF) :
    (d.set j 0).set (j + 1) 0 ≠ d ∧
      ((d.set j 0).set (j + 1) 0).length = d.length ∧
      fletcher16 ((d.set j 0).set (j + 1) 0) = fletcher16 d ∧
      (fletcher16 d).isSome = true ∧
      fletcher16 [0xFF, 0xFF] = some 0 ∧ fletcher16 [0x00, 0x00] = some 0 := by
  refine ⟨?_, by simp, ?_, by rw [fletcher16_eq]; rfl, by decide, by decide⟩
  · intro heq
    have h := congrArg (fun l => l[j + 1]?) heq
    simp only [List.getElem?_set_self (show j + 1 < (d.set j 0).length by simpa using hlen),
      List.getElem?_eq_getElem hlen, h1] at h
    exact absurd (Option.some.inj h) (by decide)
  · rw [fletcher16_eq, fletcher16_eq,
      absorb_ff_pair d j Fletcher16.create rfl hj
        (by rw [List.getElem?_eq_getElem (by omega), h0])
        (by rw [List.getElem?_eq_getElem hlen, h1])]

/-- Witness of C15 at `[1, 2, 0xFF, 0xFF, 5]` and offset 2. -/
theorem all_ones_word_blind_spot_witness :
    (([1, 2, 0xFF, 0xFF, 5] : List Byte).set 2 0).set (2 + 1) 0 ≠ [1, 2, 0xFF, 0xFF, 5] ∧
      ((([1, 2, 0xFF, 0xFF, 5] : List Byte).set 2 0).set (2 + 1) 0).length
        = ([1, 2, 0xFF, 0xFF, 5] : List Byte).length ∧
      fletcher16 ((([1, 2, 0xFF, 0xFF, 5] : List Byte).set 2 0).set (2 + 1) 0)
        = fletcher16 [1, 2, 0xFF, 0xFF, 5] ∧
      (fletcher16 [1, 2, 0xFF, 0xFF, 5]).isSome = true ∧
      fletcher16 [0xFF, 0xFF] = some 0 ∧ fletcher16 [0x00, 0x00] = some 0 :=
  all_ones_word_blind_spot [1, 2, 0xFF, 0xFF, 5] 2 (by decide) (by decide) (by decide)
    (by decide)

/-! ### The value of `get` -/

theorem get_eq_folded (s : Fletcher16) :
    s.get = s.folded.1 ||| ((s.folded.2 <<< 16) % 2 ^ 32) := by
  unfold Fletcher16.get Fletcher16.get_call Fletcher16.folded
  cases s.overflow_byte <;> rfl

theorem folded_lt (s : Fletcher16) (h : s.Reduced) :
    s.folded.1 < 65535 ∧ s.folded.2 < 65535 := by
  obtain ⟨h0, h1⟩ := h
  simp only [FLETCHER_16_MODULO] at h0 h1
  unfold Fletcher16.folded
  cases s.overflow_byte with
  | none => exact ⟨h0, h1⟩
  | some p =>
    simp only [FLETCHER_16_MODULO]
    exact ⟨Nat.mod_lt _ (by decide), Nat.mod_lt _ (by decide)⟩

/-- C16. Range of the output halves: in every state reachable from a fresh
accumulator by `update`, `reset` and `get` calls, `get()` is `lo + 65536*hi`
for the two folded sums `lo` and `hi`, its low 16 bits are `lo`, its high 16
bits are `hi`, and both are at most `0xFFFE`. -/
theorem output_halves_range (s : Fletcher16) (h : s.Reachable) :
    s.get = s.folded.1 + 65536 * s.folded.2 ∧
      s.get % 65536 = s.folded.1 ∧ s.get / 65536 = s.folded.2 ∧
      s.get % 65536 ≤ 0xFFFE ∧ s.get / 65536 ≤ 0xFFFE := by
  obtain ⟨hlo, hhi⟩ := folded_lt s (reachable_reduced s h)
  have hget : s.get = s.folded.1 + 65536 * s.folded.2 := by
    rw [get_eq_folded, or_shift_eq _ _ (by omega) (by omega)]
  rw [hget]
  refine ⟨rfl, ?_, ?_, ?_, ?_⟩ <;> omega

/-- Witness of C16 at the state reached by `update([1, 2, 3])`. -/
theorem output_halves_range_witness :
    (⟨513, 513, some 3⟩ : Fletcher16).get
        = (⟨513, 513, some 3⟩ : Fletcher16).folded.1
          + 65536 * (⟨513, 513, some 3⟩ : Fletcher16).folded.2 ∧
      (⟨513, 513, some 3⟩ : Fletcher16).get % 65536
        = (⟨513, 513, some 3⟩ : Fletcher16).folded.1 ∧
      (⟨513, 513, some 3⟩ : Fletcher16).get / 65536
        = (⟨513, 513, some 3⟩ : Fletcher16).folded.2 ∧
      (⟨513, 513, some 3⟩ : Fletcher16).get % 65536 ≤ 0xFFFE ∧
      (⟨513, 513, some 3⟩ : Fletcher16).get / 65536 ≤ 0xFFFE :=
  output_halves_range ⟨513, 513, some 3⟩
    (Fletcher16.Reachable.update Fletcher16.create _ [1, 2, 3] Fletcher16.Reachable.create
      (by decide))

/-! ### Index safety and termination of `update` -/

theorem forBody_total (add : Adder) (htot : ∀ a b, ∃ r, add a b = some r)
    (data : List Byte) (len base i : Nat) (s : Fletcher16) (hi : i < len)
    (hlen : base + len ≤ data.length) :
    ∃ s1, forBody add data len base i s = some s1 := by
  unfold forBody
  split
  · rename_i hne
    have h0 : base + i < data.length := by omega
    have h1 : base + i + 1 < data.length := by omega
    obtain ⟨c0, hc0⟩ := htot s.c0 (((data[base + i]).val ||| ((data[base + i + 1]).val <<< 8)) % 2 ^ 16)
    obtain ⟨c1, hc1⟩ := htot s.c1 c0
    simp only [List.getElem?_eq_getElem h0, List.getElem?_eq_getElem h1, Option.bind_eq_bind,
      Option.some_bind, hc0, hc1, Option.pure_def]
    exact ⟨_, rfl⟩
  · have h0 : i + base < data.length := by omega
    simp only [List.getElem?_eq_getElem h0, Option.bind_eq_bind, Option.some_bind,
      Option.pure_def]
    exact ⟨_, rfl⟩

theorem forLoop_total (add : Adder) (htot : ∀ a b, ∃ r, add a b = some r)
    (data : List Byte) (len base blocklen : Nat) (hb : blocklen ≤ len)
    (hlen : base + len ≤ data.length) :
    ∀ (f i : Nat) (s : Fletcher16), blocklen ≤ f + i →
      ∃ s1, forLoop add data len base blocklen (f + 1) i s = some s1 := by
  intro f
  induction f with
  | zero =>
    intro i s h
    rw [forLoop, if_neg (by omega)]
    exact ⟨_, rfl⟩
  | succ f ih =>
    intro i s h
    rw [forLoop]
    split
    · rename_i hlt
      obtain ⟨s1, hs1⟩ := forBody_total add htot data len base i s (by omega) hlen
      rw [hs1, Option.some_bind]
      exact ih (i + 2) s1 (by omega)
    · exact ⟨_, rfl⟩

theorem whileLoopTrace_fst (add : Adder) (data : List Byte) (io : Nat) :
    ∀ (fuel len it : Nat) (s : Fletcher16),
      (whileLoopTrace add data io fuel len it s).map Prod.fst
        = whileLoop add data io fuel len it s := by
  intro fuel
  induction fuel with
  | zero => intro len it s; rfl
  | succ f ih =>
    intro len it s
    rw [whileLoopTrace, whileLoop]
    split
    · simp only []
      cases forLoop add data len (it * FLETCHER_16_MAX_BULK_SIZE + io)
          (if len ≥ FLETCHER_16_MAX_BULK_SIZE then FLETCHER_16_MAX_BULK_SIZE else len)
          ((if len ≥ FLETCHER_16_MAX_BULK_SIZE then FLETCHER_16_MAX_BULK_SIZE else len) + 1) 0 s with
      | none => rfl
      | some s1 =>
        simp only [Option.some_bind, Option.map_map]
        rw [← ih]
        rfl
    · rfl

/-- The sizes of the passes over `r` bytes. -/
theorem pass_sizes_succ (len : Nat) (hlen : 720 < len) :
    (720 :: (List.range ((len - 720 + 719) / 720)).map fun k => min (len - 720 - 720 * k) 720)
      = (List.range ((len + 719) / 720)).map fun k => min (len - 720 * k) 720 := by
  have hm : (len + 719) / 720 = (len - 720 + 719) / 720 + 1 := by omega
  rw [hm, List.range_succ_eq_map, List.map_cons, List.map_map]
  have h0 : min (len - 720 * 0) 720 = 720 := by omega
  rw [h0]
  refine congrArg (List.cons 720) ?_
  apply List.map_congr_left
  intro k _
  show min (len - 720 - 720 * k) 720 = min (len - 720 * (k + 1)) 720
  have e : len - 720 - 720 * k = len - 720 * (k + 1) := by omega
  rw [e]

theorem pass_sizes_one (len : Nat) (h1 : 0 < len) (h2 : len ≤ 720) :
    ((List.range ((len + 719) / 720)).map fun k => min (len - 720 * k) 720) = [len] := by
  have hm : (len + 719) / 720 = 1 := by omega
  rw [hm]
  show [min (len - 720 * 0) 720] = [len]
  have e : min (len - 720 * 0) 720 = len := by omega
  rw [e]
/-- The `while` loop returns for every state: no access leaves the span, the
fuel is enough, and the passes are `ceil(len / 720)` in number, each taking
`min(remaining, 720)` bytes. -/
theorem whileLoopTrace_total (add : Adder) (htot : ∀ a b, ∃ r, add a b = some r)
    (data : List Byte) (io : Nat) :
    ∀ (f len it : Nat) (s : Fletcher16),
      it * FLETCHER_16_MAX_BULK_SIZE + io + len = data.length → len ≤ f →
      ∃ s1, whileLoopTrace add data io (f + 1) len it s =
        some (s1, it + (len + 719) / 720,
          (List.range ((len + 719) / 720)).map fun k => min (len - 720 * k) 720) := by
  intro f
  induction f with
  | zero =>
    intro len it s _ hf
    have h0 : len = 0 := by omega
    subst h0
    exact ⟨s, rfl⟩
  | succ f ih =>
    intro len it s hinv hf
    have hM : FLETCHER_16_MAX_BULK_SIZE = 720 := rfl
    rw [hM] at hinv
    by_cases hpos : len > 0
    · rw [whileLoopTrace, if_pos hpos, hM]
      dsimp only
      by_cases hbig : 720 < len
      · rw [if_pos (by omega)]
        obtain ⟨s1, hs1⟩ := forLoop_total add htot data len (it * 720 + io) 720 (by omega)
          (by omega) 720 0 s (by omega)
        obtain ⟨s2, hs2⟩ := ih (len - 720) (it + 1)
          { s1 with c0 := s1.c0 % FLETCHER_16_MODULO, c1 := s1.c1 % FLETCHER_16_MODULO }
          (by rw [hM]; omega) (by omega)
        refine ⟨s2, ?_⟩
        rw [hs1, Option.some_bind, hs2, Option.map_some', ← pass_sizes_succ len hbig]
        have hc : it + 1 + (len - 720 + 719) / 720 = it + (len + 719) / 720 := by omega
        rw [← hc]
      · have hbl : (if len ≥ 720 then 720 else len) = len := by
          split <;> omega
        rw [hbl]
        obtain ⟨s1, hs1⟩ := forLoop_total add htot data len (it * 720 + io) len
          (Nat.le_refl _) (by omega) len 0 s (by omega)
        refine ⟨{ s1 with c0 := s1.c0 % FLETCHER_16_MODULO, c1 := s1.c1 % FLETCHER_16_MODULO },
          ?_⟩
        have hm : (len + 719) / 720 = 1 := by omega
        rw [hs1, Option.some_bind, Nat.sub_self, whileLoopTrace, if_neg (by omega),
          Option.map_some', pass_sizes_one len hpos (by omega), hm]
    · have h0 : len = 0 := by omega
      subst h0
      exact ⟨s, rfl⟩

theorem add_u32_total (a b : Nat) : ∃ r, add_u32 a b = some r := ⟨_, rfl⟩

theorem add_unbounded_total (a b : Nat) : ∃ r, add_unbounded a b = some r := ⟨_, rfl⟩

theorem pendingStep_total (add : Adder) (htot : ∀ a b, ∃ r, add a b = some r)
    (d0 : Byte) (t : List Byte) (s : Fletcher16) :
    ∃ s1, pendingStep add (d0 :: t) s = some (s1, if s.overflow_byte.isSome then 1 else 0) := by
  unfold pendingStep
  cases s.overflow_byte with
  | none => exact ⟨s, rfl⟩
  | some p =>
    obtain ⟨t0, ht0⟩ := htot s.c0 ((p.val ||| (d0.val <<< 8)) % 2 ^ 16)
    obtain ⟨t1, ht1⟩ := htot s.c1 (t0 % FLETCHER_16_MODULO)
    simp only [List.getElem?_cons_zero, Option.bind_eq_bind, Option.some_bind, ht0, ht1,
      Option.pure_def]
    exact ⟨_, rfl⟩

/-- For every state and every slice `update` returns, over any addition that
does not trap. -/
theorem updateWith_total (add : Adder) (htot : ∀ a b, ∃ r, add a b = some r)
    (s : Fletcher16) (data : List Byte) : ∃ s1, s.updateWith add data = some s1 := by
  cases data with
  | nil => exact ⟨s, rfl⟩
  | cons d0 t =>
    obtain ⟨s1, hs1⟩ := pendingStep_total add htot d0 t s
    obtain ⟨s2, hs2⟩ := whileLoopTrace_total add htot (d0 :: t)
      (if s.overflow_byte.isSome then 1 else 0) (d0 :: t).length
      ((d0 :: t).length - (if s.overflow_byte.isSome then 1 else 0)) 0 s1
      (by simp only [List.length_cons]; split <;> omega) (by omega)
    have h := whileLoopTrace_fst add (d0 :: t) (if s.overflow_byte.isSome then 1 else 0)
      ((d0 :: t).length + 1)
      ((d0 :: t).length - (if s.overflow_byte.isSome then 1 else 0)) 0 s1
    rw [hs2] at h
    refine ⟨s2, ?_⟩
    rw [Fletcher16.updateWith, if_neg (by simp), hs1, Option.some_bind]
    exact h.symm

/-- C17. Index safety of `update`: for every accumulator state and every slice,
`update` returns a state, in `uint32` arithmetic and in unbounded integers
alike; since every element access of the embedding makes the call return
nothing when its index is not below `data.size()`, every access made (`data[0]`,
`data[base_offset + i]`, `data[base_offset + i + 1]`, `data[i + base_offset]`)
is inside the span. -/
theorem update_index_safety (s : Fletcher16) (data : List Byte) :
    (s.update data).isSome = true ∧ (s.update_unbounded data).isSome = true := by
  obtain ⟨s1, h1⟩ := updateWith_total add_u32 add_u32_total s data
  obtain ⟨s2, h2⟩ := updateWith_total add_unbounded add_unbounded_total s data
  rw [Fletcher16.update, h1, Fletcher16.update_unbounded, h2]
  exact ⟨rfl, rfl⟩

theorem pass_sizes_pos (r : Nat) :
    ∀ b ∈ (List.range ((r + 719) / 720)).map (fun k => min (r - 720 * k) 720), 0 < b := by
  intro b hb
  obtain ⟨k, hk, rfl⟩ := List.mem_map.mp hb
  have := List.mem_range.mp hk
  omega

theorem pass_sizes_sum : ∀ (m r : Nat), m = (r + 719) / 720 →
    ((List.range m).map fun k => min (r - 720 * k) 720).sum = r := by
  intro m
  induction m with
  | zero => intro r h; simp; omega
  | succ m ih =>
    intro r h
    by_cases hr : 720 < r
    · have e := pass_sizes_succ r hr
      have hm : (r + 719) / 720 = m + 1 := h.symm
      have hm2 : (r - 720 + 719) / 720 = m := by omega
      rw [hm, hm2] at e
      rw [← e, List.sum_cons, ih (r - 720) (by omega)]
      omega
    · have hpos : 0 < r := by omega
      have e := pass_sizes_one r hpos (by omega)
      rw [← h] at e
      rw [e]
      simp

/-- C18. Termination of `update`: with `r` the length of the slice, less one
when a pending byte is present, the `while` loop makes exactly `ceil(r / 720)`
passes (none when `r = 0`); pass `k` takes `min(r - 720*k, 720)` bytes, which
is `min(remaining, 720)` and at least one byte, the passes take `r` bytes in
all, and the state returned is that of `update`. -/
theorem update_terminates (s : Fletcher16) (data : List Byte) :
    ∃ s1, s.update data = some s1 ∧
      s.update_trace data =
        some (s1, (data.length - (if s.overflow_byte.isSome then 1 else 0) + 719) / 720,
          (List.range ((data.length - (if s.overflow_byte.isSome then 1 else 0) + 719) / 720)).map
            fun k => min (data.length - (if s.overflow_byte.isSome then 1 else 0) - 720 * k) 720) ∧
      (∀ b ∈ (List.range
            ((data.length - (if s.overflow_byte.isSome then 1 else 0) + 719) / 720)).map
          (fun k => min (data.length - (if s.overflow_byte.isSome then 1 else 0) - 720 * k) 720),
        0 < b) ∧
      ((List.range ((data.length - (if s.overflow_byte.isSome then 1 else 0) + 719) / 720)).map
          fun k => min (data.length - (if s.overflow_byte.isSome then 1 else 0) - 720 * k) 720).sum
        = data.length - (if s.overflow_byte.isSome then 1 else 0) := by
  cases data with
  | nil =>
    refine ⟨s, rfl, ?_, pass_sizes_pos _, pass_sizes_sum _ _ rfl⟩
    have hz : ([] : List Byte).length - (if s.overflow_byte.isSome then 1 else 0) = 0 := by
      simp
    rw [hz]
    rfl
  | cons d0 t =>
    obtain ⟨s1, hs1⟩ := pendingStep_total add_u32 add_u32_total d0 t s
    obtain ⟨s2, hs2⟩ := whileLoopTrace_total add_u32 add_u32_total (d0 :: t)
      (if s.overflow_byte.isSome then 1 else 0) (d0 :: t).length
      ((d0 :: t).length - (if s.overflow_byte.isSome then 1 else 0)) 0 s1
      (by simp only [List.length_cons]; split <;> omega) (by omega)
    have h := whileLoopTrace_fst add_u32 (d0 :: t) (if s.overflow_byte.isSome then 1 else 0)
      ((d0 :: t).length + 1)
      ((d0 :: t).length - (if s.overflow_byte.isSome then 1 else 0)) 0 s1
    rw [hs2] at h
    refine ⟨s2, ?_, ?_, pass_sizes_pos _, pass_sizes_sum _ _ rfl⟩
    · rw [Fletcher16.update, Fletcher16.updateWith, if_neg (by simp), hs1, Option.some_bind]
      exact h.symm
    · rw [Fletcher16.update_trace, if_neg (by simp), hs1, Option.some_bind, hs2, Nat.zero_add]

end esp
